import Mathlib

/-!
# topogo: a directed graph with adjacency sets

A shallow embedding of `dag.go` (package `topogo`) and a verification of its
mutation operations, direct-neighbour queries and closure traversal.

Modelling conventions.

* A Go `map[string]V` is an association list in insertion order.  Reading a key
  finds its first entry, assigning to a present key rewrites that entry in
  place, assigning to an absent key appends an entry, and `delete` drops every
  entry of the key.  Go leaves the iteration order of a map unspecified; the
  list order stands for one such order, and every statement below about a
  returned slice speaks of membership and multiplicity only.
* `nodeSet` is `map[string]bool`.  The program only ever stores `true`, so the
  set is the list of its keys; reading an absent key yields `false`.
* The work queue of `traceNodes` is a buffered channel of capacity 256 used by
  a single goroutine: a send on a full channel never completes.  The outcome
  of a traversal is therefore three-valued, see `Outcome`.
* Whether the queue overflows can depend on the order in which the neighbours
  of a node come out of `range`, and Go picks a new order for every `range`
  statement.  `traceNodes` follows the stored order; `traceNodesIn` takes the
  iteration order of one traversal as a parameter (`RangeOrder`), so that a
  statement about two traversals can give each its own order.
-/

namespace topogo

/-! ## Directions -/

/-- Number of edge directions (`kMax`). -/
abbrev kMax : Nat := 2

/-- The predecessor direction (`kPre = iota = 0`). -/
abbrev kPre : Fin kMax := 0

/-- The successor direction (`kSuc = 1`). -/
abbrev kSuc : Fin kMax := 1

/-- Returns the opposite direction of the given direction: `(d + 1) % kMax`. -/
def opposite (d : Fin kMax) : Fin kMax :=
  ⟨(d.val + 1) % kMax, Nat.mod_lt _ (by decide)⟩

/-! ## Sets of node identifiers -/

/-- The type `nodeSet` (`map[string]bool`), as the list of its keys. -/
abbrev nodeSet := List String

/-- Reading `s[k]`: `true` exactly when `k` is a key. -/
def setHas (s : nodeSet) (k : String) : Bool := decide (k ∈ s)

/-- The assignment `s[k] = true`. -/
def setPut (s : nodeSet) (k : String) : nodeSet :=
  if k ∈ s then s else s ++ [k]

/-- The statement `delete(s, k)`. -/
def setDel (s : nodeSet) (k : String) : nodeSet :=
  s.filter (fun x => decide (x ≠ k))

/-- The conversion `l2s`: the set of the elements of a slice. -/
def l2s (l : List String) : nodeSet := l.foldl setPut []

/-! ## Edge records -/

/-- The type `edgePair` (`[kMax]nodeSet`): slot `kPre` holds the direct
predecessors of a node, slot `kSuc` its direct successors. -/
structure edgePair where
  pre : nodeSet
  suc : nodeSet
  deriving DecidableEq, Repr

/-- Indexing `e[d]`. -/
def edgePair.slot (e : edgePair) (d : Fin kMax) : nodeSet :=
  if d = kPre then e.pre else e.suc

/-- The record `e` with slot `d` replaced by `s`. -/
def edgePair.setSlot (e : edgePair) (d : Fin kMax) (s : nodeSet) : edgePair :=
  if d = kPre then { e with pre := s } else { e with suc := s }

/-! ## The map from identifiers to edge records -/

/-- The type of `DirectedGraph.nodes` (`map[string]edgePair`). -/
abbrev nodeMap := List (String × edgePair)

/-- Reading `m[n]` with the comma-ok form: the record of `n`, if any. -/
def mapGet : nodeMap → String → Option edgePair
  | [], _ => none
  | (k, e) :: m, n => if k = n then some e else mapGet m n

/-- Applies `f` to the record of `n` when `n` is a key and leaves the map as it is
otherwise.  This is how a statement that mutates one of the sets stored under
`m[n]` acts on the map: the sets are shared by reference, so the stored record
changes; for an absent key Go reads a record of nil sets, and `delete` on a
nil set does nothing. -/
def mapModify : nodeMap → String → (edgePair → edgePair) → nodeMap
  | [], _, _ => []
  | (k, e) :: m, n, f =>
    if k = n then (k, f e) :: m else (k, e) :: mapModify m n f

/-- Reading the set `m[n][d]`.  For an absent key Go yields a record of nil
sets, and a nil set reads as the empty set. -/
def slotOf (m : nodeMap) (n : String) (d : Fin kMax) : nodeSet :=
  match mapGet m n with
  | some e => e.slot d
  | none => []

/-- A statement that mutates the set `m[n][d]` in place, `F` being its effect on
the set. -/
def slotUpdate (m : nodeMap) (n : String) (d : Fin kMax) (F : nodeSet → nodeSet) :
    nodeMap :=
  mapModify m n (fun r => r.setSlot d (F (r.slot d)))

/-- The statement `delete(m, n)`. -/
def mapDel (m : nodeMap) (n : String) : nodeMap :=
  m.filter (fun p => decide (p.1 ≠ n))

/-- A representation of a directed graph that keeps track of directional edges
between nodes.  Vertices are identified by strings. -/
structure DirectedGraph where
  nodes : nodeMap
  deriving DecidableEq, Repr

/-- Creates a new `DirectedGraph`. -/
def NewGraph : DirectedGraph := ⟨[]⟩

/-- Returns true if the node is found in the graph. -/
def HasNode (g : DirectedGraph) (n : String) : Bool :=
  (mapGet g.nodes n).isSome

/-- Adds a new node to the graph.  If the node is already in the graph, nothing
is done. -/
def AddNode (g : DirectedGraph) (n : String) : DirectedGraph :=
  if HasNode g n then g else ⟨g.nodes ++ [(n, ⟨[], []⟩)]⟩

/-- For every `v` in slot `d` of `n`, deletes `n` from slot `opposite d` of `v`.
The loop ranges over slot `d` of `n`, which the loop body never changes. -/
def removeLinks (g : DirectedGraph) (n : String) (d : Fin kMax) : DirectedGraph :=
  if HasNode g n then
    ⟨(slotOf g.nodes n d).foldl
      (fun m v => slotUpdate m v (opposite d) (fun s => setDel s n))
      g.nodes⟩
  else g

/-- Deletes a node from the graph.  If the node is not in the graph, nothing is
done. -/
def DelNode (g : DirectedGraph) (n : String) : DirectedGraph :=
  if HasNode g n then
    ⟨mapDel (removeLinks (removeLinks g n kPre) n kSuc).nodes n⟩
  else g

/-- Returns a slice of all nodes in the graph. -/
def AllNodes (g : DirectedGraph) : List String :=
  g.nodes.map Prod.fst

/-- Creates an edge from node `a` to node `b`.  If the nodes do not exist in the
graph, they are first created. -/
def AddEdge (g : DirectedGraph) (a b : String) : DirectedGraph :=
  let g1 := AddNode g a
  let g2 := AddNode g1 b
  let m3 := slotUpdate g2.nodes a kSuc (fun s => setPut s b)
  ⟨slotUpdate m3 b kPre (fun s => setPut s a)⟩

/-- Deletes the given edge from the graph.  If either of the nodes is not in the
graph, or the edge does not exist, nothing is done. -/
def DelEdge (g : DirectedGraph) (a b : String) : DirectedGraph :=
  if HasNode g a && HasNode g b then
    let m1 := slotUpdate g.nodes a kSuc (fun s => setDel s b)
    ⟨slotUpdate m1 b kPre (fun s => setDel s a)⟩
  else g

/-- The keys of slot `d` of node `n`, or nothing when `n` is not in the graph. -/
def neighbours (g : DirectedGraph) (n : String) (d : Fin kMax) : List String :=
  if HasNode g n then slotOf g.nodes n d else []

/-- Returns the immediate successors of the given node. -/
def Successors (g : DirectedGraph) (n : String) : List String :=
  neighbours g n kSuc

/-- Returns the immediate predecessors of the given node. -/
def Predecessors (g : DirectedGraph) (n : String) : List String :=
  neighbours g n kPre

/-! ## Closure traversal -/

/-- How a call that uses the bounded work queue ends: it returns a value, or a
send finds the queue full and the only goroutine waits forever, or the model
ran out of loop iterations (shown below never to happen). -/
inductive Outcome (α : Type) where
  | returned (a : α)
  | blocked
  | unfinished
  deriving DecidableEq, Repr

/-- Capacity of the buffered channel made by `make(chan string, 256)`. -/
def queueCap : Nat := 256

/-- The send `queue <- x`: completes only while the buffer has room. -/
def send (queue : List String) (x : String) : Option (List String) :=
  if queue.length < queueCap then some (queue ++ [x]) else none

/-- Sends the elements of a slice one after the other, as the two `for ... range`
loops around `queue <- ...` do. -/
def sendAll : List String → List String → Option (List String)
  | queue, [] => some queue
  | queue, x :: xs =>
    match send queue x with
    | none => none
    | some queue1 => sendAll queue1 xs

/-- The loop labelled `queueLoop`, with a bound on the number of iterations.  An
empty queue takes the `default` branch and leaves the loop. -/
def queueLoop (g : DirectedGraph) (d : Fin kMax) :
    Nat → nodeSet → List String → Outcome nodeSet
  | 0, _, _ => Outcome.unfinished
  | _ + 1, tally, [] => Outcome.returned tally
  | fuel + 1, tally, current :: queue =>
    if setHas tally current then queueLoop g d fuel tally queue
    else
      match sendAll queue (neighbours g current d) with
      | none => Outcome.blocked
      | some queue1 => queueLoop g d fuel (setPut tally current) queue1

/-- Total size of the slots `d` of all records of the map. -/
def degreeSum (d : Fin kMax) (m : nodeMap) : Nat :=
  (m.map (fun p => (p.2.slot d).length)).sum

/-- A number of iterations that `queueLoop` never exceeds: every iteration
receives one identifier, and no more identifiers are ever sent than there are
seeds plus neighbour entries. -/
def loopBound (g : DirectedGraph) (nodes : List String) (d : Fin kMax) : Nat :=
  nodes.length + degreeSum d g.nodes + 1

/-- The closure of `nodes` in direction `d`. -/
def traceNodes (g : DirectedGraph) (nodes : List String) (d : Fin kMax) :
    Outcome (List String) :=
  match sendAll [] nodes with
  | none => Outcome.blocked
  | some queue =>
    match queueLoop g d (loopBound g nodes d) [] queue with
    | Outcome.returned tally => Outcome.returned tally
    | Outcome.blocked => Outcome.blocked
    | Outcome.unfinished => Outcome.unfinished

/-- Returns the nodes that are downstream of the given node. -/
def Downstreams (g : DirectedGraph) (n : String) : Outcome (List String) :=
  traceNodes g [n] kSuc

/-- Returns the nodes that are upstream of the given node. -/
def Upstreams (g : DirectedGraph) (n : String) : Outcome (List String) :=
  traceNodes g [n] kPre

/-- Returns the nodes that span the `i` and `t` nodes. -/
def Subgraph (g : DirectedGraph) (i t : List String) : Outcome (List String) :=
  match traceNodes g i kSuc with
  | Outcome.returned downstreams =>
    match traceNodes g t kPre with
    | Outcome.returned upstreams =>
      Outcome.returned ((l2s downstreams).filter (fun n => setHas (l2s upstreams) n))
    | Outcome.blocked => Outcome.blocked
    | Outcome.unfinished => Outcome.unfinished
  | Outcome.blocked => Outcome.blocked
  | Outcome.unfinished => Outcome.unfinished

/-! ## Closure traversal under an arbitrary iteration order -/

/-- The iteration orders of one traversal.  A traversal expands every identifier
at most once, and then ranges once over its neighbour set: `children n l` is
the order in which the keys `l` of the neighbour set of `n` come out.  At the
end it ranges once over the tally: `result l` is the order in which the keys
`l` of the tally come out.  Both are rearrangements of the keys. -/
structure RangeOrder where
  children : String → List String → List String
  result : List String → List String
  children_perm : ∀ (n : String) (l : List String), (children n l).Perm l
  result_perm : ∀ l : List String, (result l).Perm l

/-- The order in which the keys are stored. -/
def storedOrder : RangeOrder :=
  ⟨fun _ l => l, fun l => l, fun _ l => List.Perm.refl l, fun l => List.Perm.refl l⟩

/-- The stored order backwards. -/
def reversedOrder : RangeOrder :=
  ⟨fun _ l => l.reverse, fun l => l.reverse, fun _ l => List.reverse_perm l,
    fun l => List.reverse_perm l⟩

/-- The slice returned by `neighbours` when the range over the slot follows the
order `o`. -/
def neighboursIn (o : RangeOrder) (g : DirectedGraph) (n : String) (d : Fin kMax) :
    List String :=
  o.children n (neighbours g n d)

/-- The loop labelled `queueLoop` when the ranges follow the order `o`. -/
def queueLoopIn (o : RangeOrder) (g : DirectedGraph) (d : Fin kMax) :
    Nat → nodeSet → List String → Outcome nodeSet
  | 0, _, _ => Outcome.unfinished
  | _ + 1, tally, [] => Outcome.returned tally
  | fuel + 1, tally, current :: queue =>
    if setHas tally current then queueLoopIn o g d fuel tally queue
    else
      match sendAll queue (neighboursIn o g current d) with
      | none => Outcome.blocked
      | some queue1 => queueLoopIn o g d fuel (setPut tally current) queue1

/-- The closure of `nodes` in direction `d` when the ranges follow the order
`o`. -/
def traceNodesIn (o : RangeOrder) (g : DirectedGraph) (nodes : List String)
    (d : Fin kMax) : Outcome (List String) :=
  match sendAll [] nodes with
  | none => Outcome.blocked
  | some queue =>
    match queueLoopIn o g d (loopBound g nodes d) [] queue with
    | Outcome.returned tally => Outcome.returned (o.result tally)
    | Outcome.blocked => Outcome.blocked
    | Outcome.unfinished => Outcome.unfinished

/-- The call `Downstreams(n)` when the ranges follow the order `o`. -/
def DownstreamsIn (o : RangeOrder) (g : DirectedGraph) (n : String) :
    Outcome (List String) :=
  traceNodesIn o g [n] kSuc

/-- The call `Upstreams(n)` when the ranges follow the order `o`. -/
def UpstreamsIn (o : RangeOrder) (g : DirectedGraph) (n : String) :
    Outcome (List String) :=
  traceNodesIn o g [n] kPre

/-! ## The mutation API -/

/-- Graphs obtained from `NewGraph()` by finitely many mutation calls. -/
inductive Reachable : DirectedGraph → Prop where
  | newGraph : Reachable NewGraph
  | addNode (g : DirectedGraph) (n : String) : Reachable g → Reachable (AddNode g n)
  | delNode (g : DirectedGraph) (n : String) : Reachable g → Reachable (DelNode g n)
  | addEdge (g : DirectedGraph) (a b : String) : Reachable g → Reachable (AddEdge g a b)
  | delEdge (g : DirectedGraph) (a b : String) : Reachable g → Reachable (DelEdge g a b)

/-- Bidirectional consistency of the edge records: `b` is a successor of `a`
exactly when `a` is a predecessor of `b`. -/
def Symmetric (g : DirectedGraph) : Prop :=
  ∀ a b : String, b ∈ Successors g a ↔ a ∈ Predecessors g b

/-- No key occurs twice, neither in the node map nor in any neighbour set. -/
def NoRepeat (g : DirectedGraph) : Prop :=
  (AllNodes g).Nodup ∧ ∀ (n : String) (d : Fin kMax), (neighbours g n d).Nodup

/-- The graph built from `NewGraph()` by `AddEdge` on each pair of a list, in
order. -/
def fromEdges (l : List (String × String)) : DirectedGraph :=
  l.foldl (fun g p => AddEdge g p.1 p.2) NewGraph

/-- The graph of the deletion scenarios: edges `x → y` and `y → z`. -/
def chainXYZ : DirectedGraph :=
  AddEdge (AddEdge NewGraph "x" "y") "y" "z"

/-- A graph with a self-loop from which an edge has been deleted again:
`x → y`, `y → y`, then `DelEdge(x, y)`. -/
def loopY : DirectedGraph :=
  DelEdge (AddEdge (AddEdge NewGraph "x" "y") "y" "y") "x" "y"

/-- A graph with a fork: edges `x → y`, `x → z` and `y → w`. -/
def forkXYZ : DirectedGraph :=
  AddEdge (AddEdge (AddEdge NewGraph "x" "y") "x" "z") "y" "w"

/-- The identifier made of `i` letters `a`. -/
def ident (i : Nat) : String := String.mk (List.replicate i 'a')

/-- The edges `hub → ident 0`, ..., `hub → ident (k - 1)`. -/
def starEdges (k : Nat) : List (String × String) :=
  (List.range k).map (fun i => ("hub", ident i))

/-- The graph in which `hub` has `k` direct successors and there are no other
edges. -/
def star (k : Nat) : DirectedGraph := fromEdges (starEdges k)

/-- The edges `ident 0 → hub`, ..., `ident (k - 1) → hub`. -/
def fanInEdges (k : Nat) : List (String × String) :=
  (List.range k).map (fun i => (ident i, "hub"))

/-- The graph in which `hub` has `k` direct predecessors and there are no other
edges. -/
def fanIn (k : Nat) : DirectedGraph := fromEdges (fanInEdges k)

/-- The edges of the directed ring through the identifiers of `ns`, in order:
each identifier is paired with the next one and the last with the first. -/
def ringEdges (ns : List String) : List (String × String) :=
  ns.zip (ns.rotate 1)

/-- The directed ring through the identifiers of `ns`, built by `AddEdge`. -/
def ring (ns : List String) : DirectedGraph := fromEdges (ringEdges ns)

/-- A path of zero or more edges in direction `d`. -/
def Path (g : DirectedGraph) (d : Fin kMax) : String → String → Prop :=
  Relation.ReflTransGen (fun x y => y ∈ neighbours g x d)

/-! ## Directions and slots -/

theorem dir_cases (d : Fin kMax) : d = kPre ∨ d = kSuc := by
  fin_cases d
  · exact Or.inl rfl
  · exact Or.inr rfl

theorem opposite_kPre : opposite kPre = kSuc := by decide

theorem opposite_kSuc : opposite kSuc = kPre := by decide

theorem opposite_ne (d : Fin kMax) : opposite d ≠ d := by
  revert d; decide

theorem slot_setSlot_same (e : edgePair) (d : Fin kMax) (s : nodeSet) :
    (e.setSlot d s).slot d = s := by
  unfold edgePair.setSlot edgePair.slot
  split <;> simp_all

theorem slot_setSlot_other (e : edgePair) (d c : Fin kMax) (s : nodeSet) (h : c ≠ d) :
    (e.setSlot d s).slot c = e.slot c := by
  rcases dir_cases d with rfl | rfl <;> rcases dir_cases c with rfl | rfl <;>
    first
    | exact absurd rfl h
    | rfl

/-! ## Sets -/

theorem mem_setPut (s : nodeSet) (k x : String) : x ∈ setPut s k ↔ x ∈ s ∨ x = k := by
  unfold setPut
  split
  · constructor
    · exact Or.inl
    · rintro (h | rfl)
      · exact h
      · assumption
  · simp

theorem mem_setDel (s : nodeSet) (k x : String) : x ∈ setDel s k ↔ x ∈ s ∧ x ≠ k := by
  simp [setDel]

theorem nodup_setPut (s : nodeSet) (k : String) (h : s.Nodup) : (setPut s k).Nodup := by
  unfold setPut
  split
  · exact h
  · rw [List.nodup_append]
    refine ⟨h, List.nodup_singleton k, ?_⟩
    intro a ha hb
    simp at hb
    subst hb
    contradiction

theorem nodup_setDel (s : nodeSet) (k : String) (h : s.Nodup) : (setDel s k).Nodup :=
  h.filter _

theorem setDel_setDel (s : nodeSet) (k : String) : setDel (setDel s k) k = setDel s k := by
  simp [setDel, List.filter_filter]

theorem setPut_setPut (s : nodeSet) (k : String) : setPut (setPut s k) k = setPut s k := by
  have h : k ∈ setPut s k := (mem_setPut s k k).2 (Or.inr rfl)
  have e : setPut (setPut s k) k
      = if k ∈ setPut s k then setPut s k else setPut s k ++ [k] := rfl
  rw [e, if_pos h]

theorem setDel_of_not_mem (s : nodeSet) (k : String) (h : k ∉ s) : setDel s k = s := by
  unfold setDel
  rw [List.filter_eq_self]
  intro a ha
  simp
  rintro rfl
  exact h ha

theorem setHas_iff (s : nodeSet) (k : String) : setHas s k = true ↔ k ∈ s := by
  simp [setHas]

theorem l2s_aux (l : List String) (acc : nodeSet) :
    (∀ x, x ∈ l.foldl setPut acc ↔ x ∈ acc ∨ x ∈ l) ∧ (acc.Nodup → (l.foldl setPut acc).Nodup) := by
  induction l generalizing acc with
  | nil => simp
  | cons a l ih =>
    obtain ⟨h1, h2⟩ := ih (setPut acc a)
    refine ⟨fun x => ?_, fun hn => h2 (nodup_setPut _ _ hn)⟩
    rw [List.foldl_cons, h1, mem_setPut, List.mem_cons]
    tauto

theorem mem_l2s (l : List String) (x : String) : x ∈ l2s l ↔ x ∈ l := by
  have := (l2s_aux l []).1 x
  simpa [l2s] using this

theorem nodup_l2s (l : List String) : (l2s l).Nodup :=
  (l2s_aux l []).2 List.nodup_nil

/-! ## The node map -/

theorem mapGet_append (m : nodeMap) (k n : String) (e : edgePair) :
    mapGet (m ++ [(k, e)]) n
      = match mapGet m n with
        | some r => some r
        | none => if k = n then some e else none := by
  induction m with
  | nil => simp [mapGet]
  | cons p m ih =>
    obtain ⟨k1, e1⟩ := p
    simp only [List.cons_append, mapGet]
    split
    · rfl
    · exact ih

theorem mapGet_modify (m : nodeMap) (k n : String) (f : edgePair → edgePair) :
    mapGet (mapModify m k f) n
      = if k = n then (mapGet m n).map f else mapGet m n := by
  induction m with
  | nil => simp [mapGet, mapModify]
  | cons p m ih =>
    obtain ⟨k1, e1⟩ := p
    simp only [mapModify]
    by_cases h1 : k1 = k
    · subst h1
      simp only [if_true, mapGet]
      by_cases h2 : k1 = n
      · simp [h2]
      · simp [h2]
    · simp only [h1, if_false, mapGet]
      by_cases h2 : k1 = n
      · subst h2
        have : ¬ k = k1 := fun h => h1 h.symm
        simp [this]
      · simp only [h2, if_false]
        exact ih

theorem mapGet_del (m : nodeMap) (k n : String) :
    mapGet (mapDel m k) n = if n = k then none else mapGet m n := by
  induction m with
  | nil => simp [mapGet, mapDel]
  | cons p m ih =>
    obtain ⟨k1, e1⟩ := p
    unfold mapDel at ih ⊢
    by_cases h1 : k1 = k
    · subst h1
      simp only [List.filter, ne_eq, not_true_eq_false, decide_False, mapGet]
      rw [ih]
      by_cases h2 : n = k1
      · simp [h2]
      · have : ¬ k1 = n := fun h => h2 h.symm
        simp [h2, this]
    · simp only [List.filter, ne_eq, h1, not_false_eq_true, decide_True, mapGet]
      by_cases h2 : k1 = n
      · subst h2
        simp [h1]
      · simp only [h2, if_false]
        exact ih

theorem keys_modify (m : nodeMap) (k : String) (f : edgePair → edgePair) :
    (mapModify m k f).map Prod.fst = m.map Prod.fst := by
  induction m with
  | nil => rfl
  | cons p m ih =>
    obtain ⟨k1, e1⟩ := p
    simp only [mapModify]
    split
    · rfl
    · simp [ih]

theorem keys_del (m : nodeMap) (k : String) :
    (mapDel m k).map Prod.fst = (m.map Prod.fst).filter (fun x => decide (x ≠ k)) := by
  unfold mapDel
  rw [List.filter_map]
  rfl

theorem mapGet_isSome_iff (m : nodeMap) (n : String) :
    (mapGet m n).isSome = true ↔ n ∈ m.map Prod.fst := by
  induction m with
  | nil => simp [mapGet]
  | cons p m ih =>
    obtain ⟨k1, e1⟩ := p
    simp only [mapGet, List.map_cons, List.mem_cons]
    by_cases h : k1 = n
    · simp [h]
    · have : ¬ n = k1 := fun e => h e.symm
      simp [h, this, ih]

theorem mapGet_mem (m : nodeMap) (n : String) (e : edgePair) (h : mapGet m n = some e) :
    (n, e) ∈ m := by
  induction m with
  | nil => simp [mapGet] at h
  | cons p m ih =>
    obtain ⟨k1, e1⟩ := p
    simp only [mapGet] at h
    split at h
    · simp_all
    · exact List.mem_cons_of_mem _ (ih h)

theorem mapGet_of_mem (m : nodeMap) (n : String) (e : edgePair)
    (hk : (m.map Prod.fst).Nodup) (h : (n, e) ∈ m) : mapGet m n = some e := by
  induction m with
  | nil => simp at h
  | cons p m ih =>
    obtain ⟨k1, e1⟩ := p
    simp only [List.map_cons, List.nodup_cons] at hk
    simp only [mapGet]
    rcases List.mem_cons.1 h with h1 | h1
    · cases h1
      simp
    · have : k1 ≠ n := by
        rintro rfl
        exact hk.1 (List.mem_map.2 ⟨(k1, e), h1, rfl⟩)
      simp only [this, if_false]
      exact ih hk.2 h1

/-! ## Reading a graph -/

theorem hasNode_iff (g : DirectedGraph) (n : String) :
    HasNode g n = true ↔ n ∈ AllNodes g :=
  mapGet_isSome_iff g.nodes n

theorem neighbours_eq (g : DirectedGraph) (n : String) (d : Fin kMax) :
    neighbours g n d = slotOf g.nodes n d := by
  unfold neighbours HasNode slotOf
  cases mapGet g.nodes n <;> simp

theorem hasNode_of_mem_neighbours (g : DirectedGraph) (n x : String) (d : Fin kMax)
    (h : x ∈ neighbours g n d) : HasNode g n = true := by
  unfold neighbours at h
  split at h
  · assumption
  · simp at h

/-! ## In-place updates of a slot -/

theorem mapGet_isSome_slotUpdate (m : nodeMap) (x k : String) (c : Fin kMax)
    (F : nodeSet → nodeSet) :
    (mapGet (slotUpdate m x c F) k).isSome = (mapGet m k).isSome := by
  unfold slotUpdate
  rw [mapGet_modify]
  split
  · cases mapGet m k <;> rfl
  · rfl

theorem keys_slotUpdate (m : nodeMap) (x : String) (c : Fin kMax) (F : nodeSet → nodeSet) :
    (slotUpdate m x c F).map Prod.fst = m.map Prod.fst :=
  keys_modify m x _

theorem slotOf_slotUpdate (m : nodeMap) (x k : String) (c d : Fin kMax)
    (F : nodeSet → nodeSet) :
    slotOf (slotUpdate m x c F) k d
      = if x = k ∧ c = d ∧ (mapGet m k).isSome = true then F (slotOf m k d)
        else slotOf m k d := by
  unfold slotOf slotUpdate
  rw [mapGet_modify]
  by_cases hx : x = k
  · subst hx
    cases hm : mapGet m x with
    | none => simp
    | some e =>
      by_cases hc : c = d
      · subst hc
        simp [slot_setSlot_same]
      · have hc2 : d ≠ c := fun h => hc h.symm
        simp [hc, slot_setSlot_other _ _ _ _ hc2]
  · simp [hx]

theorem slotOf_slotUpdate_of_nil (m : nodeMap) (x k : String) (c d : Fin kMax)
    (F : nodeSet → nodeSet) (hF : F [] = []) :
    slotOf (slotUpdate m x c F) k d
      = if x = k ∧ c = d then F (slotOf m k d) else slotOf m k d := by
  rw [slotOf_slotUpdate]
  cases hm : mapGet m k with
  | some e => simp
  | none =>
    have : slotOf m k d = [] := by simp [slotOf, hm]
    simp [this, hF]

theorem mapModify_idem (m : nodeMap) (x : String) (f : edgePair → edgePair)
    (hf : ∀ r, f (f r) = f r) :
    mapModify (mapModify m x f) x f = mapModify m x f := by
  induction m with
  | nil => rfl
  | cons p m ih =>
    obtain ⟨k1, e1⟩ := p
    by_cases h : k1 = x
    · simp [mapModify, h, hf]
    · simp [mapModify, h, ih]

theorem mapModify_comm (m : nodeMap) (x y : String) (f h : edgePair → edgePair)
    (hc : x = y → ∀ r, f (h r) = h (f r)) :
    mapModify (mapModify m x f) y h = mapModify (mapModify m y h) x f := by
  induction m with
  | nil => rfl
  | cons p m ih =>
    obtain ⟨k1, e1⟩ := p
    by_cases h1 : k1 = x <;> by_cases h2 : k1 = y
    · subst h1
      subst h2
      simp [mapModify, (hc rfl e1).symm]
    · subst h1
      have h3 : ¬ y = k1 := fun e => h2 e.symm
      simp [mapModify, h2, h3]
    · subst h2
      have h3 : ¬ x = k1 := fun e => h1 e.symm
      simp [mapModify, h1, h3]
    · simp [mapModify, h1, h2, ih]

theorem setSlot_setSlot_same (e : edgePair) (d : Fin kMax) (s t : nodeSet) :
    (e.setSlot d s).setSlot d t = e.setSlot d t := by
  rcases dir_cases d with rfl | rfl <;> rfl

theorem setSlot_comm (e : edgePair) (c d : Fin kMax) (s t : nodeSet) (h : c ≠ d) :
    (e.setSlot c s).setSlot d t = (e.setSlot d t).setSlot c s := by
  rcases dir_cases d with rfl | rfl <;> rcases dir_cases c with rfl | rfl <;>
    first
    | exact absurd rfl h
    | rfl

theorem slotUpdate_idem (m : nodeMap) (x : String) (c : Fin kMax) (F : nodeSet → nodeSet)
    (hF : ∀ s, F (F s) = F s) :
    slotUpdate (slotUpdate m x c F) x c F = slotUpdate m x c F := by
  unfold slotUpdate
  apply mapModify_idem
  intro r
  rw [slot_setSlot_same, setSlot_setSlot_same, hF]

theorem slotUpdate_comm (m : nodeMap) (x y : String) (c d : Fin kMax)
    (F G : nodeSet → nodeSet) (h : c ≠ d) :
    slotUpdate (slotUpdate m x c F) y d G = slotUpdate (slotUpdate m y d G) x c F := by
  unfold slotUpdate
  apply mapModify_comm
  intro _ r
  have h2 : d ≠ c := fun e => h e.symm
  rw [slot_setSlot_other _ _ _ _ h, slot_setSlot_other _ _ _ _ h2, setSlot_comm _ _ _ _ _ h2]

/-! ## AddNode -/

theorem addNode_of_hasNode (g : DirectedGraph) (n : String) (h : HasNode g n = true) :
    AddNode g n = g := by
  simp [AddNode, h]

theorem addNode_of_not_hasNode (g : DirectedGraph) (n : String) (h : HasNode g n = false) :
    AddNode g n = ⟨g.nodes ++ [(n, ⟨[], []⟩)]⟩ := by
  simp [AddNode, h]

theorem mapGet_AddNode (g : DirectedGraph) (n k : String) :
    mapGet (AddNode g n).nodes k
      = match mapGet g.nodes k with
        | some r => some r
        | none => if n = k then some ⟨[], []⟩ else none := by
  cases h : HasNode g n with
  | true =>
    rw [addNode_of_hasNode g n h]
    cases hk : mapGet g.nodes k with
    | some r => rfl
    | none =>
      have : ¬ n = k := by
        rintro rfl
        simp [HasNode, hk] at h
      simp [this]
  | false =>
    rw [addNode_of_not_hasNode g n h]
    exact mapGet_append g.nodes n k _

theorem hasNode_AddNode_self (g : DirectedGraph) (n : String) :
    HasNode (AddNode g n) n = true := by
  unfold HasNode
  rw [mapGet_AddNode]
  cases mapGet g.nodes n <;> simp

theorem hasNode_AddNode (g : DirectedGraph) (n k : String) :
    HasNode (AddNode g n) k = true ↔ HasNode g k = true ∨ k = n := by
  unfold HasNode
  rw [mapGet_AddNode]
  cases mapGet g.nodes k with
  | some e => simp
  | none =>
    by_cases hk : n = k
    · simp [hk]
    · have : ¬ k = n := fun e => hk e.symm
      simp [hk, this]

theorem slotOf_AddNode (g : DirectedGraph) (n k : String) (d : Fin kMax) :
    slotOf (AddNode g n).nodes k d = slotOf g.nodes k d := by
  unfold slotOf
  rw [mapGet_AddNode]
  cases mapGet g.nodes k with
  | some e => rfl
  | none =>
    by_cases hk : n = k
    · rcases dir_cases d with rfl | rfl <;> simp [hk, edgePair.slot]
    · simp [hk]

theorem neighbours_AddNode (g : DirectedGraph) (n k : String) (d : Fin kMax) :
    neighbours (AddNode g n) k d = neighbours g k d := by
  rw [neighbours_eq, neighbours_eq, slotOf_AddNode]

theorem allNodes_AddNode (g : DirectedGraph) (n : String) :
    AllNodes (AddNode g n) = if HasNode g n = true then AllNodes g else AllNodes g ++ [n] := by
  unfold AddNode AllNodes
  by_cases h : HasNode g n = true
  · simp [h]
  · simp [h]

/-! ## AddEdge -/

theorem hasNode_AddEdge (g : DirectedGraph) (a b k : String) :
    HasNode (AddEdge g a b) k = true ↔ HasNode g k = true ∨ k = a ∨ k = b := by
  unfold AddEdge
  simp only [HasNode, mapGet_isSome_slotUpdate]
  have h1 := hasNode_AddNode (AddNode g a) b k
  have h2 := hasNode_AddNode g a k
  unfold HasNode at h1 h2
  rw [h1, h2]
  tauto

theorem allNodes_AddEdge (g : DirectedGraph) (a b : String) :
    AllNodes (AddEdge g a b) = AllNodes (AddNode (AddNode g a) b) := by
  unfold AddEdge AllNodes
  simp only [keys_slotUpdate]

theorem neighbours_AddEdge_suc (g : DirectedGraph) (a b k : String) :
    neighbours (AddEdge g a b) k kSuc
      = if k = a then setPut (neighbours g k kSuc) b else neighbours g k kSuc := by
  simp only [neighbours_eq]
  unfold AddEdge
  simp only []
  rw [slotOf_slotUpdate, slotOf_slotUpdate, slotOf_AddNode, slotOf_AddNode]
  have hne : ¬ (kPre = kSuc) := by decide
  simp only [hne, false_and, and_false, if_false, true_and]
  by_cases hk : k = a
  · subst hk
    have h1 : HasNode (AddNode (AddNode g k) b) k = true :=
      (hasNode_AddNode _ _ _).2 (Or.inl (hasNode_AddNode_self g k))
    unfold HasNode at h1
    simp [h1]
  · have : ¬ a = k := fun e => hk e.symm
    simp [hk, this]

theorem neighbours_AddEdge_pre (g : DirectedGraph) (a b k : String) :
    neighbours (AddEdge g a b) k kPre
      = if k = b then setPut (neighbours g k kPre) a else neighbours g k kPre := by
  simp only [neighbours_eq]
  unfold AddEdge
  simp only []
  rw [slotOf_slotUpdate, slotOf_slotUpdate, slotOf_AddNode, slotOf_AddNode]
  have hne : ¬ (kSuc = kPre) := by decide
  simp only [hne, false_and, and_false, if_false, true_and, mapGet_isSome_slotUpdate]
  by_cases hk : k = b
  · subst hk
    have h1 : HasNode (AddNode (AddNode g a) k) k = true := hasNode_AddNode_self _ k
    unfold HasNode at h1
    simp [h1]
  · have : ¬ b = k := fun e => hk e.symm
    simp [hk, this]

/-! ## DelEdge -/

theorem hasNode_DelEdge (g : DirectedGraph) (a b k : String) :
    HasNode (DelEdge g a b) k = HasNode g k := by
  unfold DelEdge
  split
  · simp only [HasNode, mapGet_isSome_slotUpdate]
  · rfl

theorem allNodes_DelEdge (g : DirectedGraph) (a b : String) :
    AllNodes (DelEdge g a b) = AllNodes g := by
  unfold DelEdge
  split
  · simp only [AllNodes, keys_slotUpdate]
  · rfl

theorem neighbours_DelEdge_suc (g : DirectedGraph) (a b k : String) :
    neighbours (DelEdge g a b) k kSuc
      = if (HasNode g a = true ∧ HasNode g b = true) ∧ k = a
        then setDel (neighbours g k kSuc) b else neighbours g k kSuc := by
  simp only [neighbours_eq]
  unfold DelEdge
  by_cases h : HasNode g a = true ∧ HasNode g b = true
  · have hne : ¬ (kPre = kSuc) := by decide
    simp only [h, Bool.and_self, if_true, true_and]
    rw [slotOf_slotUpdate_of_nil _ _ _ _ _ _ rfl, slotOf_slotUpdate_of_nil _ _ _ _ _ _ rfl]
    simp only [hne, and_false, if_false, and_true]
    by_cases hk : k = a
    · simp [hk]
    · have : ¬ a = k := fun e => hk e.symm
      simp [hk, this]
  · have h2 : (HasNode g a && HasNode g b) = false := by
      simpa using h
    simp [h2, h]

theorem neighbours_DelEdge_pre (g : DirectedGraph) (a b k : String) :
    neighbours (DelEdge g a b) k kPre
      = if (HasNode g a = true ∧ HasNode g b = true) ∧ k = b
        then setDel (neighbours g k kPre) a else neighbours g k kPre := by
  simp only [neighbours_eq]
  unfold DelEdge
  by_cases h : HasNode g a = true ∧ HasNode g b = true
  · have hne : ¬ (kSuc = kPre) := by decide
    simp only [h, Bool.and_self, if_true, true_and]
    rw [slotOf_slotUpdate_of_nil _ _ _ _ _ _ rfl, slotOf_slotUpdate_of_nil _ _ _ _ _ _ rfl]
    simp only [hne, and_false, if_false, and_true]
    by_cases hk : k = b
    · simp [hk]
    · have : ¬ b = k := fun e => hk e.symm
      simp [hk, this]
  · have h2 : (HasNode g a && HasNode g b) = false := by
      simpa using h
    simp [h2, h]

/-! ## removeLinks and DelNode -/

theorem slotOf_foldl_strip (vs : List String) (m : nodeMap) (n k : String) (o c : Fin kMax) :
    slotOf (vs.foldl (fun m v => slotUpdate m v o (fun s => setDel s n)) m) k c
      = if k ∈ vs ∧ o = c then setDel (slotOf m k c) n else slotOf m k c := by
  induction vs generalizing m with
  | nil => simp
  | cons v vs ih =>
    rw [List.foldl_cons, ih, slotOf_slotUpdate_of_nil _ _ _ _ _ _ rfl]
    by_cases hc : o = c
    · by_cases hv : v = k
      · simp [hc, hv, setDel_setDel]
      · have hv2 : ¬ k = v := fun e => hv e.symm
        simp [hc, hv, hv2]
    · simp [hc]

theorem isSome_foldl_strip (vs : List String) (m : nodeMap) (n k : String) (o : Fin kMax) :
    (mapGet (vs.foldl (fun m v => slotUpdate m v o (fun s => setDel s n)) m) k).isSome
      = (mapGet m k).isSome := by
  induction vs generalizing m with
  | nil => rfl
  | cons v vs ih => rw [List.foldl_cons, ih, mapGet_isSome_slotUpdate]

theorem keys_foldl_strip (vs : List String) (m : nodeMap) (n : String) (o : Fin kMax) :
    (vs.foldl (fun m v => slotUpdate m v o (fun s => setDel s n)) m).map Prod.fst
      = m.map Prod.fst := by
  induction vs generalizing m with
  | nil => rfl
  | cons v vs ih => rw [List.foldl_cons, ih, keys_slotUpdate]

theorem slotOf_mapDel (m : nodeMap) (n k : String) (c : Fin kMax) :
    slotOf (mapDel m n) k c = if k = n then [] else slotOf m k c := by
  unfold slotOf
  rw [mapGet_del]
  by_cases h : k = n <;> simp [h]

theorem hasNode_removeLinks (g : DirectedGraph) (n k : String) (d : Fin kMax) :
    HasNode (removeLinks g n d) k = HasNode g k := by
  unfold removeLinks
  split
  · exact isSome_foldl_strip _ _ _ _ _
  · rfl

theorem allNodes_removeLinks (g : DirectedGraph) (n : String) (d : Fin kMax) :
    AllNodes (removeLinks g n d) = AllNodes g := by
  unfold removeLinks
  split
  · exact keys_foldl_strip _ _ _ _
  · rfl

theorem neighbours_removeLinks (g : DirectedGraph) (n k : String) (d c : Fin kMax) :
    neighbours (removeLinks g n d) k c
      = if k ∈ neighbours g n d ∧ opposite d = c then setDel (neighbours g k c) n
        else neighbours g k c := by
  cases h : HasNode g n with
  | true =>
    simp only [neighbours_eq]
    unfold removeLinks
    simp only [h, if_true]
    exact slotOf_foldl_strip _ _ _ _ _ _
  | false =>
    have h1 : removeLinks g n d = g := by simp [removeLinks, h]
    have h2 : neighbours g n d = [] := by simp [neighbours, h]
    simp [h1, h2]

theorem delNode_of_not_hasNode (g : DirectedGraph) (n : String) (h : HasNode g n = false) :
    DelNode g n = g := by
  simp [DelNode, h]

theorem hasNode_DelNode (g : DirectedGraph) (n k : String) :
    HasNode (DelNode g n) k = true ↔ HasNode g k = true ∧ k ≠ n := by
  cases h : HasNode g n with
  | false =>
    rw [delNode_of_not_hasNode g n h]
    constructor
    · intro hk
      refine ⟨hk, ?_⟩
      rintro rfl
      simp [hk] at h
    · exact fun hk => hk.1
  | true =>
    have h1 : HasNode (removeLinks (removeLinks g n kPre) n kSuc) k = HasNode g k := by
      rw [hasNode_removeLinks, hasNode_removeLinks]
    unfold DelNode
    simp only [h, if_true]
    unfold HasNode at h1 ⊢
    rw [mapGet_del]
    by_cases hk : k = n
    · simp [hk]
    · simp [hk, h1]

theorem allNodes_DelNode (g : DirectedGraph) (n : String) :
    AllNodes (DelNode g n) = (AllNodes g).filter (fun x => decide (x ≠ n)) := by
  cases h : HasNode g n with
  | false =>
    rw [delNode_of_not_hasNode g n h, eq_comm, List.filter_eq_self]
    intro a ha
    have := (hasNode_iff g a).2 ha
    simp only [ne_eq, decide_not, Bool.not_eq_true', decide_eq_false_iff_not]
    rintro rfl
    simp [this] at h
  | true =>
    have h1 : AllNodes (removeLinks (removeLinks g n kPre) n kSuc) = AllNodes g := by
      rw [allNodes_removeLinks, allNodes_removeLinks]
    unfold DelNode
    simp only [h, if_true]
    unfold AllNodes at h1 ⊢
    rw [keys_del, h1]

theorem neighbours_DelNode (g : DirectedGraph) (n k : String) (c : Fin kMax)
    (h : HasNode g n = true) :
    neighbours (DelNode g n) k c
      = if k = n then [] else neighbours (removeLinks (removeLinks g n kPre) n kSuc) k c := by
  simp only [neighbours_eq]
  unfold DelNode
  simp only [h, if_true]
  exact slotOf_mapDel _ _ _ _

/-! ## The symmetry invariant -/

theorem sym_flip (g : DirectedGraph) (hs : Symmetric g) (u v : String) (d : Fin kMax) :
    v ∈ neighbours g u d ↔ u ∈ neighbours g v (opposite d) := by
  rcases dir_cases d with rfl | rfl
  · rw [opposite_kPre]
    exact (hs v u).symm
  · rw [opposite_kSuc]
    exact hs u v

theorem hasNode_of_mem_neighbours_right (g : DirectedGraph) (hs : Symmetric g)
    (u v : String) (d : Fin kMax) (h : v ∈ neighbours g u d) : HasNode g v = true :=
  hasNode_of_mem_neighbours g v u _ ((sym_flip g hs u v d).1 h)

theorem sym_NewGraph : Symmetric NewGraph := by
  intro a b
  simp [Successors, Predecessors, neighbours, NewGraph, HasNode, mapGet]

theorem sym_AddNode (g : DirectedGraph) (n : String) (hs : Symmetric g) :
    Symmetric (AddNode g n) := by
  intro a b
  unfold Successors Predecessors
  rw [neighbours_AddNode, neighbours_AddNode]
  exact hs a b

theorem mem_successors_AddEdge (g : DirectedGraph) (a b u v : String) :
    v ∈ Successors (AddEdge g a b) u ↔ v ∈ Successors g u ∨ (u = a ∧ v = b) := by
  unfold Successors
  rw [neighbours_AddEdge_suc]
  by_cases h : u = a
  · simp [h, mem_setPut]
  · simp [h]

theorem mem_predecessors_AddEdge (g : DirectedGraph) (a b u v : String) :
    u ∈ Predecessors (AddEdge g a b) v ↔ u ∈ Predecessors g v ∨ (u = a ∧ v = b) := by
  unfold Predecessors
  rw [neighbours_AddEdge_pre]
  by_cases h : v = b
  · simp [h, mem_setPut]
  · simp [h]

theorem sym_AddEdge (g : DirectedGraph) (a b : String) (hs : Symmetric g) :
    Symmetric (AddEdge g a b) := by
  intro u v
  rw [mem_successors_AddEdge, mem_predecessors_AddEdge, hs u v]

theorem mem_successors_DelEdge (g : DirectedGraph) (a b u v : String) :
    v ∈ Successors (DelEdge g a b) u
      ↔ v ∈ Successors g u ∧ ¬ ((HasNode g a = true ∧ HasNode g b = true) ∧ u = a ∧ v = b) := by
  unfold Successors
  rw [neighbours_DelEdge_suc]
  by_cases h : (HasNode g a = true ∧ HasNode g b = true) ∧ u = a
  · rw [if_pos h, mem_setDel]
    obtain ⟨h1, h2⟩ := h
    simp [h1, h2]
  · rw [if_neg h]
    constructor
    · intro hv
      exact ⟨hv, fun hc => h ⟨hc.1, hc.2.1⟩⟩
    · exact fun hv => hv.1

theorem mem_predecessors_DelEdge (g : DirectedGraph) (a b u v : String) :
    u ∈ Predecessors (DelEdge g a b) v
      ↔ u ∈ Predecessors g v ∧ ¬ ((HasNode g a = true ∧ HasNode g b = true) ∧ u = a ∧ v = b) := by
  unfold Predecessors
  rw [neighbours_DelEdge_pre]
  by_cases h : (HasNode g a = true ∧ HasNode g b = true) ∧ v = b
  · rw [if_pos h, mem_setDel]
    obtain ⟨h1, h2⟩ := h
    simp [h1, h2]
  · rw [if_neg h]
    constructor
    · intro hv
      exact ⟨hv, fun hc => h ⟨hc.1, hc.2.2⟩⟩
    · exact fun hv => hv.1

theorem sym_DelEdge (g : DirectedGraph) (a b : String) (hs : Symmetric g) :
    Symmetric (DelEdge g a b) := by
  intro u v
  rw [mem_successors_DelEdge, mem_predecessors_DelEdge, hs u v]

theorem mem_neighbours_DelNode (g : DirectedGraph) (hs : Symmetric g) (n k x : String)
    (c : Fin kMax) :
    x ∈ neighbours (DelNode g n) k c ↔ k ≠ n ∧ x ≠ n ∧ x ∈ neighbours g k c := by
  cases h : HasNode g n with
  | false =>
    rw [delNode_of_not_hasNode g n h]
    constructor
    · intro hx
      refine ⟨?_, ?_, hx⟩
      · rintro rfl
        have := hasNode_of_mem_neighbours g k x c hx
        simp [this] at h
      · rintro rfl
        have := hasNode_of_mem_neighbours_right g hs k x c hx
        simp [this] at h
    · exact fun hx => hx.2.2
  | true =>
    rw [neighbours_DelNode g n k c h]
    by_cases hk : k = n
    · simp [hk]
    · rw [if_neg hk, neighbours_removeLinks, neighbours_removeLinks, neighbours_removeLinks,
        opposite_kPre, opposite_kSuc]
      have hflip := sym_flip g hs k n c
      have hflip2 := sym_flip g hs n k (opposite c)
      rcases dir_cases c with rfl | rfl
      · have e1 : ¬ ((1 : Fin kMax) = 0) := by decide
        simp only [true_and, and_true, e1, and_false, if_false]
        rw [opposite_kPre] at hflip hflip2
        have hmem : k ∈ (if n ∈ neighbours g n kPre then setDel (neighbours g n kSuc) n
            else neighbours g n kSuc) ↔ k ∈ neighbours g n kSuc := by
          split
          · rw [mem_setDel]
            exact ⟨fun hh => hh.1, fun hh => ⟨hh, hk⟩⟩
          · rfl
        by_cases hkn : k ∈ neighbours g n kSuc
        · rw [if_pos (hmem.2 hkn), mem_setDel]
          tauto
        · rw [if_neg (fun hh => hkn (hmem.1 hh))]
          constructor
          · intro hx
            refine ⟨hk, ?_, hx⟩
            rintro rfl
            exact hkn (hflip.1 hx)
          · exact fun hx => hx.2.2
      · have e1 : ¬ ((0 : Fin kMax) = 1) := by decide
        simp only [true_and, and_true, e1, and_false, if_false]
        rw [opposite_kSuc] at hflip hflip2
        by_cases hkn : k ∈ neighbours g n kPre
        · rw [if_pos hkn, mem_setDel]
          tauto
        · rw [if_neg hkn]
          constructor
          · intro hx
            refine ⟨hk, ?_, hx⟩
            rintro rfl
            exact hkn (hflip.1 hx)
          · exact fun hx => hx.2.2

theorem sym_DelNode (g : DirectedGraph) (n : String) (hs : Symmetric g) :
    Symmetric (DelNode g n) := by
  intro u v
  unfold Successors Predecessors
  rw [mem_neighbours_DelNode g hs, mem_neighbours_DelNode g hs]
  have := hs u v
  unfold Successors Predecessors at this
  rw [this]
  tauto

theorem sym_of_reachable (g : DirectedGraph) (h : Reachable g) : Symmetric g := by
  induction h with
  | newGraph => exact sym_NewGraph
  | addNode g n _ ih => exact sym_AddNode g n ih
  | delNode g n _ ih => exact sym_DelNode g n ih
  | addEdge g a b _ ih => exact sym_AddEdge g a b ih
  | delEdge g a b _ ih => exact sym_DelEdge g a b ih

/-! ## Keys occur once -/

theorem noRepeat_NewGraph : NoRepeat NewGraph := by
  refine ⟨List.nodup_nil, fun n d => ?_⟩
  simp [neighbours, NewGraph, HasNode, mapGet]

theorem noRepeat_AddNode (g : DirectedGraph) (n : String) (h : NoRepeat g) :
    NoRepeat (AddNode g n) := by
  refine ⟨?_, fun k d => ?_⟩
  · rw [allNodes_AddNode]
    split
    · exact h.1
    · rename_i hn
      rw [List.nodup_append]
      refine ⟨h.1, List.nodup_singleton n, ?_⟩
      intro a ha hb
      simp at hb
      subst hb
      exact hn ((hasNode_iff g a).2 ha)
  · rw [neighbours_AddNode]
    exact h.2 k d

theorem noRepeat_AddEdge (g : DirectedGraph) (a b : String) (h : NoRepeat g) :
    NoRepeat (AddEdge g a b) := by
  refine ⟨?_, fun k d => ?_⟩
  · rw [allNodes_AddEdge]
    exact (noRepeat_AddNode _ b (noRepeat_AddNode g a h)).1
  · rcases dir_cases d with rfl | rfl
    · rw [neighbours_AddEdge_pre]
      split
      · exact nodup_setPut _ _ (h.2 k kPre)
      · exact h.2 k kPre
    · rw [neighbours_AddEdge_suc]
      split
      · exact nodup_setPut _ _ (h.2 k kSuc)
      · exact h.2 k kSuc

theorem noRepeat_DelEdge (g : DirectedGraph) (a b : String) (h : NoRepeat g) :
    NoRepeat (DelEdge g a b) := by
  refine ⟨?_, fun k d => ?_⟩
  · rw [allNodes_DelEdge]
    exact h.1
  · rcases dir_cases d with rfl | rfl
    · rw [neighbours_DelEdge_pre]
      split
      · exact nodup_setDel _ _ (h.2 k kPre)
      · exact h.2 k kPre
    · rw [neighbours_DelEdge_suc]
      split
      · exact nodup_setDel _ _ (h.2 k kSuc)
      · exact h.2 k kSuc

theorem nodup_neighbours_removeLinks (g : DirectedGraph) (n : String) (d : Fin kMax)
    (h : ∀ (k : String) (c : Fin kMax), (neighbours g k c).Nodup) (k : String) (c : Fin kMax) :
    (neighbours (removeLinks g n d) k c).Nodup := by
  rw [neighbours_removeLinks]
  split
  · exact nodup_setDel _ _ (h k c)
  · exact h k c

theorem noRepeat_DelNode (g : DirectedGraph) (n : String) (h : NoRepeat g) :
    NoRepeat (DelNode g n) := by
  refine ⟨?_, fun k d => ?_⟩
  · rw [allNodes_DelNode]
    exact h.1.filter _
  · cases hn : HasNode g n with
    | false =>
      rw [delNode_of_not_hasNode g n hn]
      exact h.2 k d
    | true =>
      rw [neighbours_DelNode g n k d hn]
      split
      · exact List.nodup_nil
      · exact nodup_neighbours_removeLinks _ n kSuc
          (nodup_neighbours_removeLinks g n kPre h.2) k d

theorem noRepeat_of_reachable (g : DirectedGraph) (h : Reachable g) : NoRepeat g := by
  induction h with
  | newGraph => exact noRepeat_NewGraph
  | addNode g n _ ih => exact noRepeat_AddNode g n ih
  | delNode g n _ ih => exact noRepeat_DelNode g n ih
  | addEdge g a b _ ih => exact noRepeat_AddEdge g a b ih
  | delEdge g a b _ ih => exact noRepeat_DelEdge g a b ih

/-! ## Graphs built from a list of edges -/

theorem reachable_foldl_AddEdge (l : List (String × String)) (g : DirectedGraph)
    (h : Reachable g) : Reachable (l.foldl (fun g p => AddEdge g p.1 p.2) g) := by
  induction l generalizing g with
  | nil => exact h
  | cons p l ih => exact ih _ (Reachable.addEdge g p.1 p.2 h)

theorem reachable_fromEdges (l : List (String × String)) : Reachable (fromEdges l) :=
  reachable_foldl_AddEdge l NewGraph Reachable.newGraph

theorem hasNode_foldl_AddEdge (l : List (String × String)) (g : DirectedGraph) (k : String) :
    HasNode (l.foldl (fun g p => AddEdge g p.1 p.2) g) k = true
      ↔ HasNode g k = true ∨ ∃ p ∈ l, k = p.1 ∨ k = p.2 := by
  induction l generalizing g with
  | nil => simp
  | cons p l ih =>
    rw [List.foldl_cons, ih, hasNode_AddEdge]
    simp only [List.mem_cons, exists_eq_or_imp]
    generalize (∃ q ∈ l, k = q.1 ∨ k = q.2) = P
    tauto

theorem mem_successors_foldl_AddEdge (l : List (String × String)) (g : DirectedGraph)
    (u v : String) :
    v ∈ Successors (l.foldl (fun g p => AddEdge g p.1 p.2) g) u
      ↔ v ∈ Successors g u ∨ (u, v) ∈ l := by
  induction l generalizing g with
  | nil => simp
  | cons p l ih =>
    obtain ⟨a, b⟩ := p
    rw [List.foldl_cons, ih, mem_successors_AddEdge]
    simp only [List.mem_cons, Prod.mk.injEq]
    tauto

theorem mem_predecessors_foldl_AddEdge (l : List (String × String)) (g : DirectedGraph)
    (u v : String) :
    u ∈ Predecessors (l.foldl (fun g p => AddEdge g p.1 p.2) g) v
      ↔ u ∈ Predecessors g v ∨ (u, v) ∈ l := by
  induction l generalizing g with
  | nil => simp
  | cons p l ih =>
    obtain ⟨a, b⟩ := p
    rw [List.foldl_cons, ih, mem_predecessors_AddEdge]
    simp only [List.mem_cons, Prod.mk.injEq]
    tauto

theorem mem_successors_fromEdges (l : List (String × String)) (u v : String) :
    v ∈ Successors (fromEdges l) u ↔ (u, v) ∈ l := by
  unfold fromEdges
  rw [mem_successors_foldl_AddEdge]
  simp [Successors, neighbours, NewGraph, HasNode, mapGet]

theorem mem_predecessors_fromEdges (l : List (String × String)) (u v : String) :
    u ∈ Predecessors (fromEdges l) v ↔ (u, v) ∈ l := by
  unfold fromEdges
  rw [mem_predecessors_foldl_AddEdge]
  simp [Predecessors, neighbours, NewGraph, HasNode, mapGet]

theorem hasNode_fromEdges (l : List (String × String)) (k : String) :
    HasNode (fromEdges l) k = true ↔ ∃ p ∈ l, k = p.1 ∨ k = p.2 := by
  unfold fromEdges
  rw [hasNode_foldl_AddEdge]
  simp [NewGraph, HasNode, mapGet]

/-! ## Idempotence -/

theorem addEdge_of_hasNode (g : DirectedGraph) (a b : String)
    (ha : HasNode g a = true) (hb : HasNode g b = true) :
    AddEdge g a b
      = ⟨slotUpdate (slotUpdate g.nodes a kSuc (fun s => setPut s b))
          b kPre (fun s => setPut s a)⟩ := by
  show (⟨slotUpdate (slotUpdate (AddNode (AddNode g a) b).nodes a kSuc (fun s => setPut s b))
          b kPre (fun s => setPut s a)⟩ : DirectedGraph) = _
  rw [addNode_of_hasNode g a ha, addNode_of_hasNode g b hb]

theorem delEdge_of_hasNode (g : DirectedGraph) (a b : String)
    (h : (HasNode g a && HasNode g b) = true) :
    DelEdge g a b
      = ⟨slotUpdate (slotUpdate g.nodes a kSuc (fun s => setDel s b))
          b kPre (fun s => setDel s a)⟩ := by
  simp [DelEdge, h]

theorem slotUpdate_pair_idem (m : nodeMap) (a b : String) (F G : nodeSet → nodeSet)
    (hF : ∀ s, F (F s) = F s) (hG : ∀ s, G (G s) = G s) :
    slotUpdate (slotUpdate (slotUpdate (slotUpdate m a kSuc F) b kPre G) a kSuc F) b kPre G
      = slotUpdate (slotUpdate m a kSuc F) b kPre G := by
  have hne : kPre ≠ kSuc := by decide
  rw [slotUpdate_comm (slotUpdate m a kSuc F) b a kPre kSuc G F hne,
    slotUpdate_idem m a kSuc F hF,
    slotUpdate_idem (slotUpdate m a kSuc F) b kPre G hG]

theorem addNode_idem (g : DirectedGraph) (x : String) :
    AddNode (AddNode g x) x = AddNode g x :=
  addNode_of_hasNode _ x (hasNode_AddNode_self g x)

theorem addEdge_idem (g : DirectedGraph) (a b : String) :
    AddEdge (AddEdge g a b) a b = AddEdge g a b := by
  have ha : HasNode (AddEdge g a b) a = true :=
    (hasNode_AddEdge g a b a).2 (Or.inr (Or.inl rfl))
  have hb : HasNode (AddEdge g a b) b = true :=
    (hasNode_AddEdge g a b b).2 (Or.inr (Or.inr rfl))
  rw [addEdge_of_hasNode (AddEdge g a b) a b ha hb]
  show (⟨slotUpdate (slotUpdate (slotUpdate (slotUpdate (AddNode (AddNode g a) b).nodes
      a kSuc (fun s => setPut s b)) b kPre (fun s => setPut s a))
      a kSuc (fun s => setPut s b)) b kPre (fun s => setPut s a)⟩ : DirectedGraph)
    = ⟨slotUpdate (slotUpdate (AddNode (AddNode g a) b).nodes
      a kSuc (fun s => setPut s b)) b kPre (fun s => setPut s a)⟩
  rw [slotUpdate_pair_idem _ a b _ _ (fun s => setPut_setPut s b) (fun s => setPut_setPut s a)]

theorem delEdge_idem (g : DirectedGraph) (a b : String) :
    DelEdge (DelEdge g a b) a b = DelEdge g a b := by
  cases h : (HasNode g a && HasNode g b) with
  | false =>
    have e : DelEdge g a b = g := by simp [DelEdge, h]
    rw [e, e]
  | true =>
    have h2 : (HasNode (DelEdge g a b) a && HasNode (DelEdge g a b) b) = true := by
      rw [hasNode_DelEdge, hasNode_DelEdge]
      exact h
    rw [delEdge_of_hasNode (DelEdge g a b) a b h2, delEdge_of_hasNode g a b h]
    show (⟨slotUpdate (slotUpdate (slotUpdate (slotUpdate g.nodes
        a kSuc (fun s => setDel s b)) b kPre (fun s => setDel s a))
        a kSuc (fun s => setDel s b)) b kPre (fun s => setDel s a)⟩ : DirectedGraph) = _
    rw [slotUpdate_pair_idem _ a b _ _ (fun s => setDel_setDel s b) (fun s => setDel_setDel s a)]

theorem delNode_idem (g : DirectedGraph) (x : String) :
    DelNode (DelNode g x) x = DelNode g x := by
  apply delNode_of_not_hasNode
  cases hc : HasNode (DelNode g x) x with
  | false => rfl
  | true => exact absurd rfl ((hasNode_DelNode g x x).1 hc).2

/-! ## The bounded work queue -/

theorem sendAll_eq_some (xs queue queue1 : List String) (h : sendAll queue xs = some queue1) :
    queue1 = queue ++ xs ∧ (xs ≠ [] → queue.length + xs.length ≤ queueCap) := by
  induction xs generalizing queue with
  | nil =>
    simp only [sendAll, Option.some.injEq] at h
    simp [h]
  | cons x xs ih =>
    simp only [sendAll, send] at h
    by_cases hq : queue.length < queueCap
    · simp only [hq, if_true] at h
      obtain ⟨h1, h2⟩ := ih _ h
      refine ⟨by simp [h1], fun _ => ?_⟩
      cases xs with
      | nil =>
        simp only [List.length_cons, List.length_nil]
        omega
      | cons y ys =>
        have := h2 (by simp)
        simp only [List.length_append, List.length_cons, List.length_nil] at this ⊢
        omega
    · simp [hq] at h

theorem sendAll_of_room (xs queue : List String)
    (h : queue.length + xs.length ≤ queueCap) : sendAll queue xs = some (queue ++ xs) := by
  induction xs generalizing queue with
  | nil => simp [sendAll]
  | cons x xs ih =>
    simp only [List.length_cons] at h
    have hq : queue.length < queueCap := by omega
    simp only [sendAll, send, hq, if_true]
    rw [ih]
    · simp
    · simp only [List.length_append, List.length_cons, List.length_nil]
      omega

theorem sendAll_of_overflow (xs queue : List String)
    (h : queueCap < queue.length + xs.length) (hx : xs ≠ []) : sendAll queue xs = none := by
  cases hs : sendAll queue xs with
  | none => rfl
  | some queue1 =>
    have := (sendAll_eq_some xs queue queue1 hs).2 hx
    omega

/-! ## The iteration bound is never reached -/

theorem degreeSum_filter_le (d : Fin kMax) (m : nodeMap) (p q : String × edgePair → Bool)
    (hpq : ∀ x, q x = true → p x = true) :
    degreeSum d (m.filter q) ≤ degreeSum d (m.filter p) := by
  induction m with
  | nil => simp
  | cons a m ih =>
    unfold degreeSum at ih ⊢
    by_cases hq : q a = true
    · have hp := hpq a hq
      simp only [List.filter_cons, hq, hp, if_true, List.map_cons, List.sum_cons]
      omega
    · by_cases hp : p a = true
      · simp only [List.filter_cons, hq, hp, if_true, if_false, List.map_cons, List.sum_cons,
          Bool.false_eq_true]
        omega
      · simp only [List.filter_cons, hq, hp, if_false, Bool.false_eq_true]
        exact ih

theorem degreeSum_visit (d : Fin kMax) (m : nodeMap) (tally : nodeSet) (k : String)
    (hk : k ∉ tally) :
    degreeSum d (m.filter (fun p => decide (p.1 ∉ setPut tally k))) + (slotOf m k d).length
      ≤ degreeSum d (m.filter (fun p => decide (p.1 ∉ tally))) := by
  induction m with
  | nil => simp [slotOf, mapGet, degreeSum]
  | cons a m ih =>
    obtain ⟨k1, e1⟩ := a
    by_cases h1 : k1 = k
    · subst h1
      have hin : k1 ∈ setPut tally k1 := (mem_setPut _ _ _).2 (Or.inr rfl)
      have hle := degreeSum_filter_le d m (fun p => decide (p.1 ∉ tally))
        (fun p => decide (p.1 ∉ setPut tally k1)) (by
          intro x hx
          simp only [decide_eq_true_eq, mem_setPut, not_or] at hx ⊢
          exact hx.1)
      have hs : slotOf ((k1, e1) :: m) k1 d = e1.slot d := by simp [slotOf, mapGet]
      rw [hs]
      unfold degreeSum at hle ⊢
      simp only [List.filter_cons, hin, hk, not_true_eq_false, not_false_eq_true, decide_True,
        decide_False, if_true, List.map_cons, List.sum_cons]
      simp only [Bool.false_eq_true, if_false]
      omega
    · have hs : slotOf ((k1, e1) :: m) k d = slotOf m k d := by simp [slotOf, mapGet, h1]
      rw [hs]
      have hiff : k1 ∈ setPut tally k ↔ k1 ∈ tally := by
        rw [mem_setPut]
        exact ⟨fun hc => hc.resolve_right h1, Or.inl⟩
      unfold degreeSum at ih ⊢
      by_cases ht : k1 ∈ tally
      · have ht2 := hiff.2 ht
        simp only [List.filter_cons, ht, ht2, not_true_eq_false, decide_False,
          Bool.false_eq_true, if_false]
        exact ih
      · have ht2 : k1 ∉ setPut tally k := fun hc => ht (hiff.1 hc)
        simp only [List.filter_cons, ht, ht2, not_false_eq_true, decide_True, if_true,
          List.map_cons, List.sum_cons]
        omega

theorem queueLoop_ne_unfinished (g : DirectedGraph) (d : Fin kMax) (fuel : Nat)
    (tally : nodeSet) (queue : List String)
    (h : queue.length + degreeSum d (g.nodes.filter (fun p => decide (p.1 ∉ tally))) < fuel) :
    queueLoop g d fuel tally queue ≠ Outcome.unfinished := by
  induction fuel generalizing tally queue with
  | zero => omega
  | succ fuel ih =>
    cases queue with
    | nil => simp [queueLoop]
    | cons current queue =>
      simp only [queueLoop]
      by_cases hv : setHas tally current = true
      · simp only [hv, if_true]
        apply ih
        simp only [List.length_cons] at h
        omega
      · simp only [hv, if_false]
        cases hs : sendAll queue (neighbours g current d) with
        | none => simp
        | some queue1 =>
          simp only []
          apply ih
          have hq := (sendAll_eq_some _ _ _ hs).1
          have hk : current ∉ tally := fun hc => hv ((setHas_iff _ _).2 hc)
          have hd := degreeSum_visit d g.nodes tally current hk
          rw [← neighbours_eq] at hd
          rw [hq]
          simp only [List.length_cons, List.length_append] at h ⊢
          omega

theorem traceNodes_ne_unfinished (g : DirectedGraph) (nodes : List String) (d : Fin kMax) :
    traceNodes g nodes d ≠ Outcome.unfinished := by
  unfold traceNodes
  cases hs : sendAll [] nodes with
  | none => simp
  | some queue =>
    simp only []
    have hq := (sendAll_eq_some _ _ _ hs).1
    simp only [List.nil_append] at hq
    have hl := queueLoop_ne_unfinished g d (loopBound g nodes d) [] queue (by
      rw [hq]
      simp [loopBound])
    cases hr : queueLoop g d (loopBound g nodes d) [] queue with
    | returned tally => simp
    | blocked => simp
    | unfinished => exact absurd hr hl

/-! ## When the traversal blocks -/

theorem traceNodes_blocked_of_seeds (g : DirectedGraph) (nodes : List String) (d : Fin kMax)
    (h : queueCap < nodes.length) : traceNodes g nodes d = Outcome.blocked := by
  have hx : nodes ≠ [] := by
    rintro rfl
    simp at h
  unfold traceNodes
  rw [sendAll_of_overflow nodes [] (by simpa using h) hx]

theorem traceNodes_blocked_of_wide (g : DirectedGraph) (n : String) (d : Fin kMax)
    (h : queueCap < (neighbours g n d).length) : traceNodes g [n] d = Outcome.blocked := by
  have hx : neighbours g n d ≠ [] := by
    intro hc
    rw [hc] at h
    simp at h
  have hs : sendAll [] (neighbours g n d) = none :=
    sendAll_of_overflow _ [] (by simpa using h) hx
  have hq : sendAll [] [n] = some [n] := by
    simp [sendAll, send, queueCap]
  unfold traceNodes
  rw [hq]
  simp only [loopBound, queueLoop, setHas, List.not_mem_nil, decide_False, Bool.false_eq_true,
    if_false, hs]

/-! ## What the traversal returns -/

theorem queueLoop_nodup (g : DirectedGraph) (d : Fin kMax) (fuel : Nat)
    (tally : nodeSet) (queue : List String) (result : nodeSet)
    (h : queueLoop g d fuel tally queue = Outcome.returned result) (hn : tally.Nodup) :
    result.Nodup := by
  induction fuel generalizing tally queue with
  | zero => simp [queueLoop] at h
  | succ fuel ih =>
    cases queue with
    | nil =>
      simp only [queueLoop, Outcome.returned.injEq] at h
      exact h ▸ hn
    | cons current queue =>
      simp only [queueLoop] at h
      by_cases hv : setHas tally current = true
      · simp only [hv, if_true] at h
        exact ih _ _ h hn
      · simp only [hv, if_false] at h
        cases hs : sendAll queue (neighbours g current d) with
        | none => simp [hs] at h
        | some queue1 =>
          simp only [hs] at h
          exact ih _ _ h (nodup_setPut _ _ hn)

theorem queueLoop_sound (g : DirectedGraph) (d : Fin kMax) (R : String → Prop)
    (hR : ∀ x y, R x → y ∈ neighbours g x d → R y) (fuel : Nat)
    (tally : nodeSet) (queue : List String) (result : nodeSet)
    (h : queueLoop g d fuel tally queue = Outcome.returned result)
    (ht : ∀ x ∈ tally, R x) (hq : ∀ x ∈ queue, R x) : ∀ x ∈ result, R x := by
  induction fuel generalizing tally queue with
  | zero => simp [queueLoop] at h
  | succ fuel ih =>
    cases queue with
    | nil =>
      simp only [queueLoop, Outcome.returned.injEq] at h
      exact h ▸ ht
    | cons current queue =>
      simp only [queueLoop] at h
      have hcur : R current := hq current (List.mem_cons_self _ _)
      have hrest : ∀ x ∈ queue, R x := fun x hx => hq x (List.mem_cons_of_mem _ hx)
      by_cases hv : setHas tally current = true
      · simp only [hv, if_true] at h
        exact ih _ _ h ht hrest
      · simp only [hv, if_false] at h
        cases hs : sendAll queue (neighbours g current d) with
        | none => simp [hs] at h
        | some queue1 =>
          simp only [hs] at h
          have e := (sendAll_eq_some _ _ _ hs).1
          apply ih _ _ h
          · intro x hx
            rcases (mem_setPut _ _ _).1 hx with h1 | h1
            · exact ht x h1
            · exact h1 ▸ hcur
          · intro x hx
            rw [e] at hx
            rcases List.mem_append.1 hx with h1 | h1
            · exact hrest x h1
            · exact hR current x hcur h1

theorem queueLoop_complete (g : DirectedGraph) (d : Fin kMax) (fuel : Nat)
    (tally : nodeSet) (queue : List String) (result : nodeSet)
    (h : queueLoop g d fuel tally queue = Outcome.returned result)
    (hc : ∀ x ∈ tally, ∀ y ∈ neighbours g x d, y ∈ tally ∨ y ∈ queue) :
    (∀ x ∈ tally, x ∈ result) ∧ (∀ x ∈ queue, x ∈ result)
      ∧ ∀ x ∈ result, ∀ y ∈ neighbours g x d, y ∈ result := by
  induction fuel generalizing tally queue with
  | zero => simp [queueLoop] at h
  | succ fuel ih =>
    cases queue with
    | nil =>
      simp only [queueLoop, Outcome.returned.injEq] at h
      subst h
      refine ⟨fun x hx => hx, fun x hx => absurd hx (List.not_mem_nil x), ?_⟩
      intro x hx y hy
      exact (hc x hx y hy).resolve_right (List.not_mem_nil y)
    | cons current queue =>
      simp only [queueLoop] at h
      by_cases hv : setHas tally current = true
      · simp only [hv, if_true] at h
        have hcur : current ∈ tally := (setHas_iff _ _).1 hv
        obtain ⟨h1, h2, h3⟩ := ih tally queue h (by
          intro x hx y hy
          rcases hc x hx y hy with h4 | h4
          · exact Or.inl h4
          · rcases List.mem_cons.1 h4 with h5 | h5
            · exact Or.inl (h5 ▸ hcur)
            · exact Or.inr h5)
        refine ⟨h1, ?_, h3⟩
        intro x hx
        rcases List.mem_cons.1 hx with h5 | h5
        · exact h1 x (h5 ▸ hcur)
        · exact h2 x h5
      · simp only [hv, if_false] at h
        cases hs : sendAll queue (neighbours g current d) with
        | none => simp [hs] at h
        | some queue1 =>
          simp only [hs] at h
          have e := (sendAll_eq_some _ _ _ hs).1
          obtain ⟨h1, h2, h3⟩ := ih (setPut tally current) queue1 h (by
            intro x hx y hy
            rw [e]
            rcases (mem_setPut _ _ _).1 hx with h4 | h4
            · rcases hc x h4 y hy with h5 | h5
              · exact Or.inl ((mem_setPut _ _ _).2 (Or.inl h5))
              · rcases List.mem_cons.1 h5 with h6 | h6
                · exact Or.inl ((mem_setPut _ _ _).2 (Or.inr h6))
                · exact Or.inr (List.mem_append.2 (Or.inl h6))
            · subst h4
              exact Or.inr (List.mem_append.2 (Or.inr hy)))
          refine ⟨fun x hx => h1 x ((mem_setPut _ _ _).2 (Or.inl hx)), ?_, h3⟩
          intro x hx
          rcases List.mem_cons.1 hx with h5 | h5
          · exact h1 x ((mem_setPut _ _ _).2 (Or.inr h5))
          · exact h2 x (e ▸ List.mem_append.2 (Or.inl h5))

theorem traceNodes_returned (g : DirectedGraph) (nodes : List String) (d : Fin kMax)
    (result : List String) (h : traceNodes g nodes d = Outcome.returned result) :
    result.Nodup ∧ ∀ x : String, x ∈ result ↔ ∃ s ∈ nodes, Path g d s x := by
  unfold traceNodes at h
  cases hs : sendAll [] nodes with
  | none => simp [hs] at h
  | some queue =>
    simp only [hs] at h
    have hq := (sendAll_eq_some _ _ _ hs).1
    simp only [List.nil_append] at hq
    subst hq
    cases hr : queueLoop g d (loopBound g queue d) [] queue with
    | blocked => simp [hr] at h
    | unfinished => simp [hr] at h
    | returned tally =>
      simp only [hr, Outcome.returned.injEq] at h
      subst h
      refine ⟨queueLoop_nodup g d _ _ _ _ hr List.nodup_nil, fun x => ⟨?_, ?_⟩⟩
      · exact queueLoop_sound g d (fun x => ∃ s ∈ queue, Path g d s x)
          (fun x y hx hy => by
            obtain ⟨s, hs1, hs2⟩ := hx
            exact ⟨s, hs1, Relation.ReflTransGen.tail hs2 hy⟩)
          _ _ _ _ hr (fun x hx => absurd hx (List.not_mem_nil x))
          (fun x hx => ⟨x, hx, Relation.ReflTransGen.refl⟩) x
      · rintro ⟨s, hs1, hs2⟩
        obtain ⟨_, h2, h3⟩ := queueLoop_complete g d _ _ _ _ hr
          (fun x hx => absurd hx (List.not_mem_nil x))
        induction hs2 with
        | refl => exact h2 s hs1
        | tail _ hstep ih => exact h3 _ ih _ hstep

/-! ## Paths and Subgraph -/

theorem path_reverse (g : DirectedGraph) (hs : Symmetric g) (d : Fin kMax) (u v : String) :
    Path g d u v → Path g (opposite d) v u := by
  intro h
  induction h with
  | refl => exact Relation.ReflTransGen.refl
  | tail _ hstep ih =>
    exact Relation.ReflTransGen.head ((sym_flip g hs _ _ d).1 hstep) ih

theorem path_pre_iff_suc (g : DirectedGraph) (hs : Symmetric g) (u v : String) :
    Path g kPre u v ↔ Path g kSuc v u := by
  constructor
  · intro h
    have := path_reverse g hs kPre u v h
    rwa [opposite_kPre] at this
  · intro h
    have := path_reverse g hs kSuc v u h
    rwa [opposite_kSuc] at this

theorem subgraph_returned (g : DirectedGraph) (i t sg : List String)
    (h : Subgraph g i t = Outcome.returned sg) :
    sg.Nodup ∧ ∀ v : String,
      v ∈ sg ↔ (∃ s ∈ i, Path g kSuc s v) ∧ (∃ e ∈ t, Path g kPre e v) := by
  unfold Subgraph at h
  cases hd : traceNodes g i kSuc with
  | blocked => simp [hd] at h
  | unfinished => simp [hd] at h
  | returned downstreams =>
    cases hu : traceNodes g t kPre with
    | blocked => simp [hd, hu] at h
    | unfinished => simp [hd, hu] at h
    | returned upstreams =>
      simp only [hd, hu, Outcome.returned.injEq] at h
      subst h
      have h1 := (traceNodes_returned g i kSuc downstreams hd).2
      have h2 := (traceNodes_returned g t kPre upstreams hu).2
      refine ⟨(nodup_l2s downstreams).filter _, fun v => ?_⟩
      rw [List.mem_filter, setHas_iff, mem_l2s, mem_l2s, h1, h2]

/-! ## The star graph -/

theorem ident_injective : Function.Injective ident := by
  intro i j h
  unfold ident at h
  have h2 : List.replicate i 'a' = List.replicate j 'a' := by
    injection h
  have h3 := congrArg List.length h2
  simpa using h3

theorem length_successors_star (k : Nat) : k ≤ (Successors (star k) "hub").length := by
  have hnd : ((List.range k).map ident).Nodup :=
    (List.nodup_range k).map ident_injective
  have hsub : (List.range k).map ident ⊆ Successors (star k) "hub" := by
    intro b hb
    rw [star, mem_successors_fromEdges, starEdges]
    obtain ⟨i, hi, rfl⟩ := List.mem_map.1 hb
    exact List.mem_map.2 ⟨i, hi, rfl⟩
  have := (List.subperm_of_subset hnd hsub).length_le
  simpa using this

theorem subgraph_returned_of_reachable (g : DirectedGraph) (hg : Reachable g)
    (i t sg : List String) (h : Subgraph g i t = Outcome.returned sg) :
    sg.Nodup ∧ ∀ v : String,
      v ∈ sg ↔ ∃ s ∈ i, ∃ e ∈ t, Path g kSuc s v ∧ Path g kSuc v e := by
  obtain ⟨h1, h2⟩ := subgraph_returned g i t sg h
  have hs := sym_of_reachable g hg
  refine ⟨h1, fun v => ?_⟩
  rw [h2]
  constructor
  · rintro ⟨⟨s, hs1, hs2⟩, ⟨e, he1, he2⟩⟩
    exact ⟨s, hs1, e, he1, hs2, (path_pre_iff_suc g hs e v).1 he2⟩
  · rintro ⟨s, hs1, e, he1, hs2, he2⟩
    exact ⟨⟨s, hs1, hs2⟩, ⟨e, he1, (path_pre_iff_suc g hs e v).2 he2⟩⟩

theorem subgraph_ne_unfinished (g : DirectedGraph) (i t : List String) :
    Subgraph g i t ≠ Outcome.unfinished := by
  unfold Subgraph
  have h1 := traceNodes_ne_unfinished g i kSuc
  have h2 := traceNodes_ne_unfinished g t kPre
  cases hd : traceNodes g i kSuc with
  | blocked => simp
  | unfinished => exact absurd hd h1
  | returned downstreams =>
    cases hu : traceNodes g t kPre with
    | blocked => simp
    | unfinished => exact absurd hu h2
    | returned upstreams => simp

/-! ## Identifiers that are not nodes -/

theorem neighbours_of_not_hasNode (g : DirectedGraph) (n : String) (d : Fin kMax)
    (h : HasNode g n = false) : neighbours g n d = [] := by
  simp [neighbours, h]

theorem delEdge_of_not_hasNode_left (g : DirectedGraph) (a b : String)
    (h : HasNode g a = false) : DelEdge g a b = g := by
  simp [DelEdge, h]

theorem delEdge_of_not_hasNode_right (g : DirectedGraph) (a b : String)
    (h : HasNode g b = false) : DelEdge g a b = g := by
  simp [DelEdge, h]

theorem path_of_not_hasNode (g : DirectedGraph) (d : Fin kMax) (n x : String)
    (h : HasNode g n = false) (hp : Path g d n x) : x = n := by
  induction hp with
  | refl => rfl
  | tail _ hstep ih =>
    subst ih
    rw [neighbours_of_not_hasNode g _ d h] at hstep
    exact absurd hstep (List.not_mem_nil _)

theorem traceNodes_of_not_hasNode (g : DirectedGraph) (n : String) (d : Fin kMax)
    (h : HasNode g n = false) : traceNodes g [n] d = Outcome.returned [n] := by
  have hq : sendAll [] [n] = some [n] := by
    simp [sendAll, send, queueCap]
  have hnb : neighbours g n d = [] := neighbours_of_not_hasNode g n d h
  have hb : loopBound g [n] d = (degreeSum d g.nodes + 1) + 1 := by
    simp only [loopBound, List.length_singleton]
    omega
  unfold traceNodes
  rw [hq, hb]
  simp [queueLoop, setHas, hnb, sendAll, setPut]

/-! ## Consequences of the closure characterisation -/

theorem mem_traceNodes_self (g : DirectedGraph) (nodes : List String) (d : Fin kMax)
    (result : List String) (h : traceNodes g nodes d = Outcome.returned result)
    (s : String) (hs : s ∈ nodes) : s ∈ result :=
  ((traceNodes_returned g nodes d result h).2 s).2 ⟨s, hs, Relation.ReflTransGen.refl⟩

theorem mem_traceNodes_neighbour (g : DirectedGraph) (n : String) (d : Fin kMax)
    (result : List String) (h : traceNodes g [n] d = Outcome.returned result)
    (x : String) (hx : x ∈ neighbours g n d) : x ∈ result :=
  ((traceNodes_returned g [n] d result h).2 x).2
    ⟨n, List.mem_singleton_self n, Relation.ReflTransGen.single hx⟩

theorem mem_traceNodes_single (g : DirectedGraph) (n : String) (d : Fin kMax)
    (result : List String) (h : traceNodes g [n] d = Outcome.returned result) (x : String) :
    x ∈ result ↔ Path g d n x := by
  rw [(traceNodes_returned g [n] d result h).2 x]
  constructor
  · rintro ⟨s, hs, hp⟩
    rw [List.mem_singleton] at hs
    exact hs ▸ hp
  · exact fun hp => ⟨n, List.mem_singleton_self n, hp⟩

theorem hasNode_of_path (g : DirectedGraph) (hs : Symmetric g) (d : Fin kMax) (n x : String)
    (hp : Path g d n x) (hne : x ≠ n) : HasNode g x = true := by
  induction hp with
  | refl => exact absurd rfl hne
  | tail _ hstep _ => exact hasNode_of_mem_neighbours_right g hs _ _ d hstep

/-! ## When the work queue is large enough -/

theorem pending_visit (g : DirectedGraph) (d : Fin kMax) (R : List String) (tally : nodeSet)
    (k : String) (hk : k ∈ R) (ht : k ∉ tally) :
    ((R.filter (fun x => decide (x ∉ setPut tally k))).map
        (fun x => (neighbours g x d).length)).sum + (neighbours g k d).length
      ≤ ((R.filter (fun x => decide (x ∉ tally))).map
        (fun x => (neighbours g x d).length)).sum := by
  induction R with
  | nil => exact absurd hk (List.not_mem_nil k)
  | cons a R ih =>
    by_cases ha : a = k
    · subst ha
      have hin : a ∈ setPut tally a := (mem_setPut _ _ _).2 (Or.inr rfl)
      have hle : ((R.filter (fun x => decide (x ∉ setPut tally a))).map
            (fun x => (neighbours g x d).length)).sum
          ≤ ((R.filter (fun x => decide (x ∉ tally))).map
            (fun x => (neighbours g x d).length)).sum := by
        apply List.Sublist.sum_le_sum
        · apply List.Sublist.map
          apply List.monotone_filter_right
          intro x hx
          simp only [decide_eq_true_eq, mem_setPut, not_or] at hx ⊢
          exact hx.1
        · intro x _
          exact Nat.zero_le x
      simp only [List.filter_cons, hin, ht, not_true_eq_false, not_false_eq_true, decide_True,
        decide_False, Bool.false_eq_true, if_true, if_false, List.map_cons, List.sum_cons]
      omega
    · have hkR : k ∈ R := (List.mem_cons.1 hk).resolve_left (fun e => ha e.symm)
      have hiff : a ∈ setPut tally k ↔ a ∈ tally := by
        rw [mem_setPut]
        exact ⟨fun hc => hc.resolve_right ha, Or.inl⟩
      have := ih hkR
      by_cases hat : a ∈ tally
      · have hat2 := hiff.2 hat
        simp only [List.filter_cons, hat, hat2, not_true_eq_false, decide_False,
          Bool.false_eq_true, if_false]
        exact this
      · have hat2 : a ∉ setPut tally k := fun hc => hat (hiff.1 hc)
        simp only [List.filter_cons, hat, hat2, not_false_eq_true, decide_True, if_true,
          List.map_cons, List.sum_cons]
        omega

theorem queueLoop_ne_blocked (g : DirectedGraph) (d : Fin kMax) (R : List String)
    (hR : ∀ x ∈ R, ∀ y ∈ neighbours g x d, y ∈ R) (fuel : Nat)
    (tally : nodeSet) (queue : List String) (hq : ∀ x ∈ queue, x ∈ R)
    (hcap : queue.length + ((R.filter (fun x => decide (x ∉ tally))).map
        (fun x => (neighbours g x d).length)).sum ≤ queueCap) :
    queueLoop g d fuel tally queue ≠ Outcome.blocked := by
  induction fuel generalizing tally queue with
  | zero => simp [queueLoop]
  | succ fuel ih =>
    cases queue with
    | nil => simp [queueLoop]
    | cons current queue =>
      simp only [queueLoop]
      have hrest : ∀ x ∈ queue, x ∈ R := fun x hx => hq x (List.mem_cons_of_mem _ hx)
      simp only [List.length_cons] at hcap
      by_cases hv : setHas tally current = true
      · simp only [hv, if_true]
        exact ih tally queue hrest (by omega)
      · simp only [hv, if_false]
        have hcur : current ∈ R := hq current (List.mem_cons_self _ _)
        have hk : current ∉ tally := fun hc => hv ((setHas_iff _ _).2 hc)
        have hp := pending_visit g d R tally current hcur hk
        rw [sendAll_of_room _ _ (by omega)]
        simp only []
        apply ih
        · intro x hx
          rcases List.mem_append.1 hx with h1 | h1
          · exact hrest x h1
          · exact hR current hcur x h1
        · simp only [List.length_append]
          omega

theorem traceNodes_returns_of_room (g : DirectedGraph) (nodes : List String) (d : Fin kMax)
    (R : List String) (hs : ∀ s ∈ nodes, s ∈ R)
    (hR : ∀ x ∈ R, ∀ y ∈ neighbours g x d, y ∈ R)
    (hsum : nodes.length + (R.map (fun x => (neighbours g x d).length)).sum ≤ queueCap) :
    ∃ result, traceNodes g nodes d = Outcome.returned result := by
  have hq : sendAll [] nodes = some nodes := by
    have := sendAll_of_room nodes [] (by simpa using (by omega : nodes.length ≤ queueCap))
    simpa using this
  have hnb := queueLoop_ne_blocked g d R hR (loopBound g nodes d) [] nodes hs (by
    simpa using hsum)
  have hnu := traceNodes_ne_unfinished g nodes d
  unfold traceNodes at hnu ⊢
  rw [hq] at hnu ⊢
  simp only [] at hnu ⊢
  cases hr : queueLoop g d (loopBound g nodes d) [] nodes with
  | returned tally => exact ⟨tally, rfl⟩
  | blocked => exact absurd hr hnb
  | unfinished => simp [hr] at hnu

/-! ## Graphs in which every node has at most one neighbour -/

theorem queueLoop_ne_blocked_of_narrow (g : DirectedGraph) (d : Fin kMax)
    (hdeg : ∀ x : String, (neighbours g x d).length ≤ 1) (fuel : Nat)
    (tally : nodeSet) (queue : List String) (hq : queue.length ≤ queueCap) :
    queueLoop g d fuel tally queue ≠ Outcome.blocked := by
  induction fuel generalizing tally queue with
  | zero => simp [queueLoop]
  | succ fuel ih =>
    cases queue with
    | nil => simp [queueLoop]
    | cons current queue =>
      simp only [queueLoop]
      simp only [List.length_cons] at hq
      by_cases hv : setHas tally current = true
      · simp only [hv, if_true]
        exact ih tally queue (by omega)
      · simp only [hv, if_false]
        have h1 := hdeg current
        rw [sendAll_of_room _ _ (by omega)]
        simp only []
        apply ih
        simp only [List.length_append]
        omega

theorem traceNodes_returns_of_narrow (g : DirectedGraph) (n : String) (d : Fin kMax)
    (hdeg : ∀ x : String, (neighbours g x d).length ≤ 1) :
    ∃ result, traceNodes g [n] d = Outcome.returned result := by
  have hq : sendAll [] [n] = some [n] := by
    simp [sendAll, send, queueCap]
  have hnb := queueLoop_ne_blocked_of_narrow g d hdeg (loopBound g [n] d) [] [n]
    (by simp [queueCap])
  have hnu := traceNodes_ne_unfinished g [n] d
  unfold traceNodes at hnu ⊢
  rw [hq] at hnu ⊢
  simp only [] at hnu ⊢
  cases hr : queueLoop g d (loopBound g [n] d) [] [n] with
  | returned tally => exact ⟨tally, rfl⟩
  | blocked => exact absurd hr hnb
  | unfinished => simp [hr] at hnu

theorem length_le_one_of_all_eq (l : List String) (hn : l.Nodup)
    (h : ∀ x ∈ l, ∀ y ∈ l, x = y) : l.length ≤ 1 := by
  cases l with
  | nil => simp
  | cons a t =>
    cases t with
    | nil => simp
    | cons b t =>
      have hab : a = b := h a (by simp) b (by simp)
      subst hab
      simp at hn

/-! ## The directed ring -/

theorem zip_fst_unique (A B : List String) (hA : A.Nodup) (x y z : String)
    (h1 : (x, y) ∈ A.zip B) (h2 : (x, z) ∈ A.zip B) : y = z := by
  induction A generalizing B with
  | nil => simp at h1
  | cons a A ih =>
    cases B with
    | nil => simp at h1
    | cons b B =>
      simp only [List.zip_cons_cons, List.mem_cons, Prod.mk.injEq] at h1 h2
      rw [List.nodup_cons] at hA
      rcases h1 with ⟨rfl, rfl⟩ | h1
      · rcases h2 with ⟨_, rfl⟩ | h2
        · rfl
        · exact absurd (List.of_mem_zip h2).1 hA.1
      · rcases h2 with ⟨rfl, _⟩ | h2
        · exact absurd (List.of_mem_zip h1).1 hA.1
        · exact ih B hA.2 h1 h2

theorem zip_snd_unique (A B : List String) (hB : B.Nodup) (x y z : String)
    (h1 : (x, z) ∈ A.zip B) (h2 : (y, z) ∈ A.zip B) : x = y := by
  induction A generalizing B with
  | nil => simp at h1
  | cons a A ih =>
    cases B with
    | nil => simp at h1
    | cons b B =>
      simp only [List.zip_cons_cons, List.mem_cons, Prod.mk.injEq] at h1 h2
      rw [List.nodup_cons] at hB
      rcases h1 with ⟨rfl, rfl⟩ | h1
      · rcases h2 with ⟨rfl, _⟩ | h2
        · rfl
        · exact absurd (List.of_mem_zip h2).2 hB.1
      · rcases h2 with ⟨_, rfl⟩ | h2
        · exact absurd (List.of_mem_zip h1).2 hB.1
        · exact ih B hB.2 h1 h2

theorem ringEdges_cons (a : String) (t : List String) :
    ringEdges (a :: t) = (a :: t).zip (t ++ [a]) := by
  simp [ringEdges, List.rotate_cons_succ]

theorem mem_neighbours_ring_suc (ns : List String) (x y : String) :
    y ∈ neighbours (ring ns) x kSuc ↔ (x, y) ∈ ringEdges ns :=
  mem_successors_fromEdges (ringEdges ns) x y

theorem mem_neighbours_ring_pre (ns : List String) (x y : String) :
    y ∈ neighbours (ring ns) x kPre ↔ (y, x) ∈ ringEdges ns :=
  mem_predecessors_fromEdges (ringEdges ns) y x

theorem ring_narrow (ns : List String) (hn : ns.Nodup) (d : Fin kMax) (x : String) :
    (neighbours (ring ns) x d).length ≤ 1 := by
  have hnd : (neighbours (ring ns) x d).Nodup :=
    (noRepeat_of_reachable _ (reachable_fromEdges (ringEdges ns))).2 x d
  apply length_le_one_of_all_eq _ hnd
  intro y hy z hz
  rcases dir_cases d with rfl | rfl
  · rw [mem_neighbours_ring_pre] at hy hz
    exact zip_snd_unique ns (ns.rotate 1) (List.nodup_rotate.2 hn) y z x hy hz
  · rw [mem_neighbours_ring_suc] at hy hz
    exact zip_fst_unique ns (ns.rotate 1) hn x y z hy hz

theorem ring_forward (t : List String) (b : String) (cs : List String) :
    ∀ x ∈ b :: t,
      Relation.ReflTransGen (fun u v => (u, v) ∈ (b :: t).zip (t ++ cs)) b x := by
  induction t generalizing b with
  | nil =>
    intro x hx
    rw [List.mem_singleton] at hx
    subst hx
    exact Relation.ReflTransGen.refl
  | cons c t ih =>
    intro x hx
    rcases List.mem_cons.1 hx with rfl | hx
    · exact Relation.ReflTransGen.refl
    · have hstep : (b, c) ∈ (b :: c :: t).zip (c :: t ++ cs) := by simp
      refine Relation.ReflTransGen.head hstep ?_
      refine Relation.ReflTransGen.mono ?_ (ih c x hx)
      intro u v huv
      simp only [List.cons_append, List.zip_cons_cons] at huv ⊢
      exact List.mem_cons_of_mem _ huv

theorem ring_backward (t : List String) (b c : String) :
    ∀ x ∈ b :: t,
      Relation.ReflTransGen (fun u v => (u, v) ∈ (b :: t).zip (t ++ [c])) x c := by
  induction t generalizing b with
  | nil =>
    intro x hx
    rw [List.mem_singleton] at hx
    subst hx
    exact Relation.ReflTransGen.single (by simp)
  | cons e t ih =>
    intro x hx
    have hmono : ∀ u v, (u, v) ∈ (e :: t).zip (t ++ [c])
        → (u, v) ∈ (b :: e :: t).zip (e :: t ++ [c]) := by
      intro u v huv
      simp only [List.cons_append, List.zip_cons_cons] at huv ⊢
      exact List.mem_cons_of_mem _ huv
    rcases List.mem_cons.1 hx with rfl | hx
    · have hstep : (x, e) ∈ (x :: e :: t).zip (e :: t ++ [c]) := by simp
      exact Relation.ReflTransGen.head hstep
        (Relation.ReflTransGen.mono hmono (ih e e (List.mem_cons_self _ _)))
    · exact Relation.ReflTransGen.mono hmono (ih e x hx)

theorem path_ring_suc (a : String) (t : List String) (x : String) (hx : x ∈ a :: t) :
    Path (ring (a :: t)) kSuc a x ∧ Path (ring (a :: t)) kSuc x a := by
  have e : (fun u v => v ∈ neighbours (ring (a :: t)) u kSuc)
      = (fun u v => (u, v) ∈ (a :: t).zip (t ++ [a])) := by
    funext u v
    rw [mem_neighbours_ring_suc, ringEdges_cons]
  unfold Path
  rw [e]
  exact ⟨ring_forward t a [a] x hx, ring_backward t a a x hx⟩

theorem mem_of_path_ring (ns : List String) (d : Fin kMax) (n x : String) (hn : n ∈ ns)
    (hp : Path (ring ns) d n x) : x ∈ ns := by
  induction hp with
  | refl => exact hn
  | tail _ hstep _ =>
    rcases dir_cases d with rfl | rfl
    · rw [mem_neighbours_ring_pre] at hstep
      exact (List.of_mem_zip hstep).1
    · rw [mem_neighbours_ring_suc] at hstep
      exact List.mem_rotate.1 (List.of_mem_zip hstep).2

theorem closure_ring (a : String) (t : List String) (hn : (a :: t).Nodup) (d : Fin kMax) :
    ∃ result, traceNodes (ring (a :: t)) [a] d = Outcome.returned result
      ∧ result.Perm (a :: t) := by
  obtain ⟨result, hr⟩ := traceNodes_returns_of_narrow (ring (a :: t)) a d
    (ring_narrow (a :: t) hn d)
  refine ⟨result, hr, ?_⟩
  rw [List.perm_ext_iff_of_nodup (traceNodes_returned _ _ _ _ hr).1 hn]
  intro x
  rw [mem_traceNodes_single _ a d result hr x]
  constructor
  · exact mem_of_path_ring (a :: t) d a x (List.mem_cons_self _ _)
  · intro hx
    have hs := sym_of_reachable _ (reachable_fromEdges (ringEdges (a :: t)))
    rcases dir_cases d with rfl | rfl
    · exact (path_pre_iff_suc _ hs a x).2 (path_ring_suc a t x hx).2
    · exact (path_ring_suc a t x hx).1

/-! ## The fan-in graph -/

theorem length_predecessors_fanIn (k : Nat) : k ≤ (Predecessors (fanIn k) "hub").length := by
  have hnd : ((List.range k).map ident).Nodup :=
    (List.nodup_range k).map ident_injective
  have hsub : (List.range k).map ident ⊆ Predecessors (fanIn k) "hub" := by
    intro b hb
    rw [fanIn, mem_predecessors_fromEdges, fanInEdges]
    obtain ⟨i, hi, rfl⟩ := List.mem_map.1 hb
    exact List.mem_map.2 ⟨i, hi, rfl⟩
  have := (List.subperm_of_subset hnd hsub).length_le
  simpa using this

theorem mem_successors_star (k i : Nat) (h : i < k) : ident i ∈ Successors (star k) "hub" := by
  rw [star, mem_successors_fromEdges, starEdges]
  exact List.mem_map.2 ⟨i, List.mem_range.2 h, rfl⟩

/-! ## The traversal under an arbitrary iteration order -/

theorem mem_neighboursIn (o : RangeOrder) (g : DirectedGraph) (n x : String) (d : Fin kMax) :
    x ∈ neighboursIn o g n d ↔ x ∈ neighbours g n d :=
  (o.children_perm n (neighbours g n d)).mem_iff

theorem length_neighboursIn (o : RangeOrder) (g : DirectedGraph) (n : String) (d : Fin kMax) :
    (neighboursIn o g n d).length = (neighbours g n d).length :=
  (o.children_perm n (neighbours g n d)).length_eq

theorem queueLoopIn_storedOrder (g : DirectedGraph) (d : Fin kMax) (fuel : Nat)
    (tally : nodeSet) (queue : List String) :
    queueLoopIn storedOrder g d fuel tally queue = queueLoop g d fuel tally queue := by
  induction fuel generalizing tally queue with
  | zero => rfl
  | succ fuel ih =>
    cases queue with
    | nil => rfl
    | cons current queue =>
      simp only [queueLoopIn, queueLoop]
      have e : neighboursIn storedOrder g current d = neighbours g current d := rfl
      rw [e, ih]
      cases sendAll queue (neighbours g current d) with
      | none => rfl
      | some queue1 =>
        simp only []
        rw [ih]

theorem traceNodesIn_storedOrder (g : DirectedGraph) (nodes : List String) (d : Fin kMax) :
    traceNodesIn storedOrder g nodes d = traceNodes g nodes d := by
  unfold traceNodesIn traceNodes
  cases sendAll [] nodes with
  | none => rfl
  | some queue =>
    simp only []
    rw [queueLoopIn_storedOrder]
    cases queueLoop g d (loopBound g nodes d) [] queue <;> rfl

theorem queueLoopIn_ne_unfinished (o : RangeOrder) (g : DirectedGraph) (d : Fin kMax)
    (fuel : Nat) (tally : nodeSet) (queue : List String)
    (h : queue.length + degreeSum d (g.nodes.filter (fun p => decide (p.1 ∉ tally))) < fuel) :
    queueLoopIn o g d fuel tally queue ≠ Outcome.unfinished := by
  induction fuel generalizing tally queue with
  | zero => omega
  | succ fuel ih =>
    cases queue with
    | nil => simp [queueLoopIn]
    | cons current queue =>
      simp only [queueLoopIn]
      by_cases hv : setHas tally current = true
      · simp only [hv, if_true]
        apply ih
        simp only [List.length_cons] at h
        omega
      · simp only [hv, if_false]
        cases hs : sendAll queue (neighboursIn o g current d) with
        | none => simp
        | some queue1 =>
          simp only []
          apply ih
          have hq := (sendAll_eq_some _ _ _ hs).1
          have hk : current ∉ tally := fun hc => hv ((setHas_iff _ _).2 hc)
          have hd := degreeSum_visit d g.nodes tally current hk
          rw [← neighbours_eq, ← length_neighboursIn o] at hd
          rw [hq]
          simp only [List.length_cons, List.length_append] at h ⊢
          omega

theorem traceNodesIn_ne_unfinished (o : RangeOrder) (g : DirectedGraph)
    (nodes : List String) (d : Fin kMax) :
    traceNodesIn o g nodes d ≠ Outcome.unfinished := by
  unfold traceNodesIn
  cases hs : sendAll [] nodes with
  | none => simp
  | some queue =>
    simp only []
    have hq := (sendAll_eq_some _ _ _ hs).1
    simp only [List.nil_append] at hq
    have hl := queueLoopIn_ne_unfinished o g d (loopBound g nodes d) [] queue (by
      rw [hq]
      simp [loopBound])
    cases hr : queueLoopIn o g d (loopBound g nodes d) [] queue with
    | returned tally => simp
    | blocked => simp
    | unfinished => exact absurd hr hl

theorem queueLoopIn_nodup (o : RangeOrder) (g : DirectedGraph) (d : Fin kMax) (fuel : Nat)
    (tally : nodeSet) (queue : List String) (result : nodeSet)
    (h : queueLoopIn o g d fuel tally queue = Outcome.returned result) (hn : tally.Nodup) :
    result.Nodup := by
  induction fuel generalizing tally queue with
  | zero => simp [queueLoopIn] at h
  | succ fuel ih =>
    cases queue with
    | nil =>
      simp only [queueLoopIn, Outcome.returned.injEq] at h
      exact h ▸ hn
    | cons current queue =>
      simp only [queueLoopIn] at h
      by_cases hv : setHas tally current = true
      · simp only [hv, if_true] at h
        exact ih _ _ h hn
      · simp only [hv, if_false] at h
        cases hs : sendAll queue (neighboursIn o g current d) with
        | none => simp [hs] at h
        | some queue1 =>
          simp only [hs] at h
          exact ih _ _ h (nodup_setPut _ _ hn)

theorem queueLoopIn_sound (o : RangeOrder) (g : DirectedGraph) (d : Fin kMax)
    (R : String → Prop) (hR : ∀ x y, R x → y ∈ neighbours g x d → R y) (fuel : Nat)
    (tally : nodeSet) (queue : List String) (result : nodeSet)
    (h : queueLoopIn o g d fuel tally queue = Outcome.returned result)
    (ht : ∀ x ∈ tally, R x) (hq : ∀ x ∈ queue, R x) : ∀ x ∈ result, R x := by
  induction fuel generalizing tally queue with
  | zero => simp [queueLoopIn] at h
  | succ fuel ih =>
    cases queue with
    | nil =>
      simp only [queueLoopIn, Outcome.returned.injEq] at h
      exact h ▸ ht
    | cons current queue =>
      simp only [queueLoopIn] at h
      have hcur : R current := hq current (List.mem_cons_self _ _)
      have hrest : ∀ x ∈ queue, R x := fun x hx => hq x (List.mem_cons_of_mem _ hx)
      by_cases hv : setHas tally current = true
      · simp only [hv, if_true] at h
        exact ih _ _ h ht hrest
      · simp only [hv, if_false] at h
        cases hs : sendAll queue (neighboursIn o g current d) with
        | none => simp [hs] at h
        | some queue1 =>
          simp only [hs] at h
          have e := (sendAll_eq_some _ _ _ hs).1
          apply ih _ _ h
          · intro x hx
            rcases (mem_setPut _ _ _).1 hx with h1 | h1
            · exact ht x h1
            · exact h1 ▸ hcur
          · intro x hx
            rw [e] at hx
            rcases List.mem_append.1 hx with h1 | h1
            · exact hrest x h1
            · exact hR current x hcur ((mem_neighboursIn o g current x d).1 h1)

theorem queueLoopIn_complete (o : RangeOrder) (g : DirectedGraph) (d : Fin kMax) (fuel : Nat)
    (tally : nodeSet) (queue : List String) (result : nodeSet)
    (h : queueLoopIn o g d fuel tally queue = Outcome.returned result)
    (hc : ∀ x ∈ tally, ∀ y ∈ neighbours g x d, y ∈ tally ∨ y ∈ queue) :
    (∀ x ∈ tally, x ∈ result) ∧ (∀ x ∈ queue, x ∈ result)
      ∧ ∀ x ∈ result, ∀ y ∈ neighbours g x d, y ∈ result := by
  induction fuel generalizing tally queue with
  | zero => simp [queueLoopIn] at h
  | succ fuel ih =>
    cases queue with
    | nil =>
      simp only [queueLoopIn, Outcome.returned.injEq] at h
      subst h
      refine ⟨fun x hx => hx, fun x hx => absurd hx (List.not_mem_nil x), ?_⟩
      intro x hx y hy
      exact (hc x hx y hy).resolve_right (List.not_mem_nil y)
    | cons current queue =>
      simp only [queueLoopIn] at h
      by_cases hv : setHas tally current = true
      · simp only [hv, if_true] at h
        have hcur : current ∈ tally := (setHas_iff _ _).1 hv
        obtain ⟨h1, h2, h3⟩ := ih tally queue h (by
          intro x hx y hy
          rcases hc x hx y hy with h4 | h4
          · exact Or.inl h4
          · rcases List.mem_cons.1 h4 with h5 | h5
            · exact Or.inl (h5 ▸ hcur)
            · exact Or.inr h5)
        refine ⟨h1, ?_, h3⟩
        intro x hx
        rcases List.mem_cons.1 hx with h5 | h5
        · exact h1 x (h5 ▸ hcur)
        · exact h2 x h5
      · simp only [hv, if_false] at h
        cases hs : sendAll queue (neighboursIn o g current d) with
        | none => simp [hs] at h
        | some queue1 =>
          simp only [hs] at h
          have e := (sendAll_eq_some _ _ _ hs).1
          obtain ⟨h1, h2, h3⟩ := ih (setPut tally current) queue1 h (by
            intro x hx y hy
            rw [e]
            rcases (mem_setPut _ _ _).1 hx with h4 | h4
            · rcases hc x h4 y hy with h5 | h5
              · exact Or.inl ((mem_setPut _ _ _).2 (Or.inl h5))
              · rcases List.mem_cons.1 h5 with h6 | h6
                · exact Or.inl ((mem_setPut _ _ _).2 (Or.inr h6))
                · exact Or.inr (List.mem_append.2 (Or.inl h6))
            · subst h4
              exact Or.inr (List.mem_append.2
                (Or.inr ((mem_neighboursIn o g x y d).2 hy))))
          refine ⟨fun x hx => h1 x ((mem_setPut _ _ _).2 (Or.inl hx)), ?_, h3⟩
          intro x hx
          rcases List.mem_cons.1 hx with h5 | h5
          · exact h1 x ((mem_setPut _ _ _).2 (Or.inr h5))
          · exact h2 x (e ▸ List.mem_append.2 (Or.inl h5))

theorem traceNodesIn_returned (o : RangeOrder) (g : DirectedGraph) (nodes : List String)
    (d : Fin kMax) (result : List String)
    (h : traceNodesIn o g nodes d = Outcome.returned result) :
    result.Nodup ∧ ∀ x : String, x ∈ result ↔ ∃ s ∈ nodes, Path g d s x := by
  unfold traceNodesIn at h
  cases hs : sendAll [] nodes with
  | none => simp [hs] at h
  | some queue =>
    simp only [hs] at h
    have hq := (sendAll_eq_some _ _ _ hs).1
    simp only [List.nil_append] at hq
    subst hq
    cases hr : queueLoopIn o g d (loopBound g queue d) [] queue with
    | blocked => simp [hr] at h
    | unfinished => simp [hr] at h
    | returned tally =>
      simp only [hr, Outcome.returned.injEq] at h
      subst h
      have hp := o.result_perm tally
      refine ⟨hp.nodup_iff.2 (queueLoopIn_nodup o g d _ _ _ _ hr List.nodup_nil),
        fun x => ?_⟩
      rw [hp.mem_iff]
      constructor
      · exact queueLoopIn_sound o g d (fun x => ∃ s ∈ queue, Path g d s x)
          (fun x y hx hy => by
            obtain ⟨s, hs1, hs2⟩ := hx
            exact ⟨s, hs1, Relation.ReflTransGen.tail hs2 hy⟩)
          _ _ _ _ hr (fun x hx => absurd hx (List.not_mem_nil x))
          (fun x hx => ⟨x, hx, Relation.ReflTransGen.refl⟩) x
      · rintro ⟨s, hs1, hs2⟩
        obtain ⟨_, h2, h3⟩ := queueLoopIn_complete o g d _ _ _ _ hr
          (fun x hx => absurd hx (List.not_mem_nil x))
        induction hs2 with
        | refl => exact h2 s hs1
        | tail _ hstep ih => exact h3 _ ih _ hstep

theorem mem_traceNodesIn_single (o : RangeOrder) (g : DirectedGraph) (n : String)
    (d : Fin kMax) (result : List String)
    (h : traceNodesIn o g [n] d = Outcome.returned result) (x : String) :
    x ∈ result ↔ Path g d n x := by
  rw [(traceNodesIn_returned o g [n] d result h).2 x]
  constructor
  · rintro ⟨s, hs, hp⟩
    rw [List.mem_singleton] at hs
    exact hs ▸ hp
  · exact fun hp => ⟨n, List.mem_singleton_self n, hp⟩

theorem downstreamsIn_storedOrder (g : DirectedGraph) (n : String) :
    DownstreamsIn storedOrder g n = Downstreams g n :=
  traceNodesIn_storedOrder g [n] kSuc

theorem upstreamsIn_storedOrder (g : DirectedGraph) (n : String) :
    UpstreamsIn storedOrder g n = Upstreams g n :=
  traceNodesIn_storedOrder g [n] kPre

/-! ## Mutation contracts -/

/-- C1. Symmetry invariant: in every graph reachable from `NewGraph()` by `AddNode`,
`DelNode`, `AddEdge` and `DelEdge` calls, and for all identifiers `a` and `b` (equal or
not), `b` is in `Successors(a)` exactly when `a` is in `Predecessors(b)`. -/
theorem symmetry_invariant (g : DirectedGraph) (h : Reachable g) (a b : String) :
    b ∈ Successors g a ↔ a ∈ Predecessors g b :=
  sym_of_reachable g h a b

/-- Instance of C1 on the graph `loopY`, at its self-loop `y → y`. -/
theorem symmetry_invariant_witness :
    "y" ∈ Successors loopY "y" ↔ "y" ∈ Predecessors loopY "y" :=
  symmetry_invariant loopY
    (Reachable.delEdge _ "x" "y"
      (Reachable.addEdge _ "y" "y" (Reachable.addEdge _ "x" "y" Reachable.newGraph)))
    "y" "y"

/-- C5. DelNode postcondition: in a reachable graph, and for every identifier `x` (in
particular every `x` present in it), after `DelNode(x)` the node `x` is gone, `x` is in
no successor or predecessor set, the nodes are the old nodes other than `x` (each once),
and an edge between two identifiers other than `x` is present exactly when it was
before. -/
theorem delNode_postcondition (g : DirectedGraph) (h : Reachable g) (x : String) :
    HasNode (DelNode g x) x = false
    ∧ (∀ y : String, x ∉ Successors (DelNode g x) y ∧ x ∉ Predecessors (DelNode g x) y)
    ∧ (∀ y : String, HasNode (DelNode g x) y = true ↔ HasNode g y = true ∧ y ≠ x)
    ∧ (∀ y : String, y ∈ AllNodes (DelNode g x) ↔ y ∈ AllNodes g ∧ y ≠ x)
    ∧ (AllNodes (DelNode g x)).Nodup
    ∧ (∀ u v : String, u ≠ x → v ≠ x →
        ((v ∈ Successors (DelNode g x) u ↔ v ∈ Successors g u)
          ∧ (u ∈ Predecessors (DelNode g x) v ↔ u ∈ Predecessors g v))) := by
  have hs := sym_of_reachable g h
  refine ⟨?_, ?_, ?_, ?_, ?_, ?_⟩
  · cases hc : HasNode (DelNode g x) x with
    | false => rfl
    | true => exact absurd rfl ((hasNode_DelNode g x x).1 hc).2
  · intro y
    unfold Successors Predecessors
    rw [mem_neighbours_DelNode g hs, mem_neighbours_DelNode g hs]
    exact ⟨fun hc => hc.2.1 rfl, fun hc => hc.2.1 rfl⟩
  · exact fun y => hasNode_DelNode g x y
  · intro y
    rw [← hasNode_iff, ← hasNode_iff]
    exact hasNode_DelNode g x y
  · exact (noRepeat_DelNode g x (noRepeat_of_reachable g h)).1
  · intro u v hu hv
    unfold Successors Predecessors
    rw [mem_neighbours_DelNode g hs, mem_neighbours_DelNode g hs]
    exact ⟨⟨fun hc => hc.2.2, fun hc => ⟨hu, hv, hc⟩⟩, ⟨fun hc => hc.2.2, fun hc => ⟨hv, hu, hc⟩⟩⟩

/-- Instance of C5: deleting `y` from the chain `x → y → z`. -/
theorem delNode_postcondition_witness :
    HasNode chainXYZ "y" = true
    ∧ (HasNode (DelNode chainXYZ "y") "y" = false
    ∧ (∀ y : String, "y" ∉ Successors (DelNode chainXYZ "y") y
        ∧ "y" ∉ Predecessors (DelNode chainXYZ "y") y)
    ∧ (∀ y : String, HasNode (DelNode chainXYZ "y") y = true
        ↔ HasNode chainXYZ y = true ∧ y ≠ "y")
    ∧ (∀ y : String, y ∈ AllNodes (DelNode chainXYZ "y") ↔ y ∈ AllNodes chainXYZ ∧ y ≠ "y")
    ∧ (AllNodes (DelNode chainXYZ "y")).Nodup
    ∧ (∀ u v : String, u ≠ "y" → v ≠ "y" →
        ((v ∈ Successors (DelNode chainXYZ "y") u ↔ v ∈ Successors chainXYZ u)
          ∧ (u ∈ Predecessors (DelNode chainXYZ "y") v ↔ u ∈ Predecessors chainXYZ v)))) :=
  ⟨by decide,
   delNode_postcondition chainXYZ
    (Reachable.addEdge _ "y" "z" (Reachable.addEdge _ "x" "y" Reachable.newGraph))
    "y"⟩

/-- C6. AddEdge postcondition: for every graph and all identifiers `a` and `b`, after
`AddEdge(a, b)` both nodes are present, `b` is a successor of `a` and `a` a predecessor
of `b`, the nodes are the old nodes together with `a` and `b`, and for every pair
`(u, v)` other than `(a, b)` membership of `v` in `Successors(u)` and of `u` in
`Predecessors(v)` is as before. -/
theorem addEdge_postcondition (g : DirectedGraph) (a b : String) :
    HasNode (AddEdge g a b) a = true
    ∧ HasNode (AddEdge g a b) b = true
    ∧ b ∈ Successors (AddEdge g a b) a
    ∧ a ∈ Predecessors (AddEdge g a b) b
    ∧ (∀ k : String, HasNode (AddEdge g a b) k = true ↔ HasNode g k = true ∨ k = a ∨ k = b)
    ∧ (∀ k : String, k ∈ AllNodes (AddEdge g a b) ↔ k ∈ AllNodes g ∨ k = a ∨ k = b)
    ∧ (∀ u v : String, (u, v) ≠ (a, b) →
        ((v ∈ Successors (AddEdge g a b) u ↔ v ∈ Successors g u)
          ∧ (u ∈ Predecessors (AddEdge g a b) v ↔ u ∈ Predecessors g v))) := by
  refine ⟨?_, ?_, ?_, ?_, ?_, ?_, ?_⟩
  · exact (hasNode_AddEdge g a b a).2 (Or.inr (Or.inl rfl))
  · exact (hasNode_AddEdge g a b b).2 (Or.inr (Or.inr rfl))
  · exact (mem_successors_AddEdge g a b a b).2 (Or.inr ⟨rfl, rfl⟩)
  · exact (mem_predecessors_AddEdge g a b a b).2 (Or.inr ⟨rfl, rfl⟩)
  · exact fun k => hasNode_AddEdge g a b k
  · intro k
    rw [← hasNode_iff, ← hasNode_iff]
    exact hasNode_AddEdge g a b k
  · intro u v huv
    have hne : ¬ (u = a ∧ v = b) := fun hc => huv (by rw [hc.1, hc.2])
    rw [mem_successors_AddEdge, mem_predecessors_AddEdge]
    exact ⟨⟨fun hc => hc.resolve_right hne, Or.inl⟩, ⟨fun hc => hc.resolve_right hne, Or.inl⟩⟩

/-- C7. DelEdge postcondition and frame: in a graph that contains both `a` and `b`, after
`DelEdge(a, b)` the edge is absent from both records, the nodes are unchanged, and every
other edge is present exactly when it was before. -/
theorem delEdge_postcondition (g : DirectedGraph) (a b : String)
    (ha : HasNode g a = true) (hb : HasNode g b = true) :
    b ∉ Successors (DelEdge g a b) a
    ∧ a ∉ Predecessors (DelEdge g a b) b
    ∧ (∀ k : String, HasNode (DelEdge g a b) k = HasNode g k)
    ∧ AllNodes (DelEdge g a b) = AllNodes g
    ∧ (∀ u v : String, (u, v) ≠ (a, b) →
        ((v ∈ Successors (DelEdge g a b) u ↔ v ∈ Successors g u)
          ∧ (u ∈ Predecessors (DelEdge g a b) v ↔ u ∈ Predecessors g v))) := by
  refine ⟨?_, ?_, ?_, ?_, ?_⟩
  · rw [mem_successors_DelEdge]
    exact fun hc => hc.2 ⟨⟨ha, hb⟩, rfl, rfl⟩
  · rw [mem_predecessors_DelEdge]
    exact fun hc => hc.2 ⟨⟨ha, hb⟩, rfl, rfl⟩
  · exact fun k => hasNode_DelEdge g a b k
  · exact allNodes_DelEdge g a b
  · intro u v huv
    have hne : ¬ ((HasNode g a = true ∧ HasNode g b = true) ∧ u = a ∧ v = b) :=
      fun hc => huv (by rw [hc.2.1, hc.2.2])
    rw [mem_successors_DelEdge, mem_predecessors_DelEdge]
    exact ⟨⟨fun hc => hc.1, fun hc => ⟨hc, hne⟩⟩, ⟨fun hc => hc.1, fun hc => ⟨hc, hne⟩⟩⟩

/-- Instance of C7: deleting `y → z` from the chain `x → y → z`. -/
theorem delEdge_postcondition_witness :
    (HasNode chainXYZ "y" = true ∧ HasNode chainXYZ "z" = true)
    ∧ ("z" ∉ Successors (DelEdge chainXYZ "y" "z") "y"
    ∧ "y" ∉ Predecessors (DelEdge chainXYZ "y" "z") "z"
    ∧ (∀ k : String, HasNode (DelEdge chainXYZ "y" "z") k = HasNode chainXYZ k)
    ∧ AllNodes (DelEdge chainXYZ "y" "z") = AllNodes chainXYZ
    ∧ (∀ u v : String, (u, v) ≠ ("y", "z") →
        ((v ∈ Successors (DelEdge chainXYZ "y" "z") u ↔ v ∈ Successors chainXYZ u)
          ∧ (u ∈ Predecessors (DelEdge chainXYZ "y" "z") v
              ↔ u ∈ Predecessors chainXYZ v)))) :=
  ⟨⟨by decide, by decide⟩, delEdge_postcondition chainXYZ "y" "z" (by decide) (by decide)⟩

/-- C8. Idempotence of mutations: for every graph state and all identifiers, applying
`AddNode(x)`, `AddEdge(a, b)`, `DelEdge(a, b)` or `DelNode(x)` twice yields the same
graph state as applying it once. -/
theorem mutations_idempotent (g : DirectedGraph) (x a b : String) :
    AddNode (AddNode g x) x = AddNode g x
    ∧ AddEdge (AddEdge g a b) a b = AddEdge g a b
    ∧ DelEdge (DelEdge g a b) a b = DelEdge g a b
    ∧ DelNode (DelNode g x) x = DelNode g x :=
  ⟨addNode_idem g x, addEdge_idem g a b, delEdge_idem g a b, delNode_idem g x⟩

/-- C9. Nodes of a graph built from edges: for every list `L` of pairs, `AllNodes()` of
the graph built from `NewGraph()` by `AddEdge` on each pair of `L` in order contains
exactly the identifiers that are an endpoint of some pair of `L`, each exactly once. -/
theorem allNodes_fromEdges (L : List (String × String)) :
    (AllNodes (fromEdges L)).Nodup
    ∧ ∀ x : String, x ∈ AllNodes (fromEdges L) ↔ ∃ p ∈ L, x = p.1 ∨ x = p.2 := by
  refine ⟨(noRepeat_of_reachable _ (reachable_fromEdges L)).1, fun x => ?_⟩
  rw [← hasNode_iff]
  exact hasNode_fromEdges L x

/-- C10. Direct neighbours of a graph built from edges: for every list `L` of pairs and
every identifier `n`, in the graph built from `NewGraph()` by `AddEdge` on each pair of
`L` in order, `Successors(n)` holds exactly the `b` with `(n, b)` in `L` and
`Predecessors(n)` exactly the `a` with `(a, n)` in `L`, each exactly once, and each is
empty when there is no such pair. -/
theorem neighbours_fromEdges (L : List (String × String)) (n : String) :
    ((Successors (fromEdges L) n).Nodup
      ∧ ∀ b : String, b ∈ Successors (fromEdges L) n ↔ (n, b) ∈ L)
    ∧ ((Predecessors (fromEdges L) n).Nodup
      ∧ ∀ a : String, a ∈ Predecessors (fromEdges L) n ↔ (a, n) ∈ L)
    ∧ ((∀ b : String, (n, b) ∉ L) → Successors (fromEdges L) n = [])
    ∧ ((∀ a : String, (a, n) ∉ L) → Predecessors (fromEdges L) n = []) := by
  have hn := (noRepeat_of_reachable _ (reachable_fromEdges L)).2 n
  refine ⟨⟨hn kSuc, fun b => mem_successors_fromEdges L n b⟩,
    ⟨hn kPre, fun a => mem_predecessors_fromEdges L a n⟩, ?_, ?_⟩
  · intro h
    apply List.eq_nil_iff_forall_not_mem.2
    intro b hb
    exact h b ((mem_successors_fromEdges L n b).1 hb)
  · intro h
    apply List.eq_nil_iff_forall_not_mem.2
    intro a ha
    exact h a ((mem_predecessors_fromEdges L a n).1 ha)

/-! ## The traversal on inputs that overflow the work queue -/

/-- C2, evaluated at a failing input: in the graph where `hub` has 257 direct
successors, `Downstreams("hub")` does not return the closure; the send of the 257th
child finds the 256-place queue full and the call blocks forever. -/
theorem downstreams_star_blocked : Downstreams (star 257) "hub" = Outcome.blocked := by
  apply traceNodes_blocked_of_wide
  have h := length_successors_star 257
  unfold Successors at h
  unfold queueCap
  omega

/-- C3, evaluated at a failing input: on the chain `x → y → z`, `Subgraph` with the
initiator `x` and a list of 257 terminators (all `z`) does not return the nodes between
them; seeding the upstream traversal blocks on the full queue. -/
theorem subgraph_chain_blocked :
    Subgraph chainXYZ ["x"] (List.replicate 257 "z") = Outcome.blocked := by
  have h1 : traceNodes chainXYZ ["x"] kSuc = Outcome.returned ["x", "y", "z"] := by decide
  have h2 : traceNodes chainXYZ (List.replicate 257 "z") kPre = Outcome.blocked :=
    traceNodes_blocked_of_seeds _ _ _ (by rw [List.length_replicate]; decide)
  simp only [Subgraph, h1, h2]

/-- C4, evaluated at a failing input: with 257 seeds the closure traversal blocks on its
work queue before the loop starts, already on the empty graph, and so does `Subgraph`
called with these initiators. -/
theorem traceNodes_seeds_blocked :
    traceNodes NewGraph (List.replicate 257 "a") kSuc = Outcome.blocked
    ∧ Subgraph NewGraph (List.replicate 257 "a") [] = Outcome.blocked := by
  have h : traceNodes NewGraph (List.replicate 257 "a") kSuc = Outcome.blocked :=
    traceNodes_blocked_of_seeds _ _ _ (by rw [List.length_replicate]; decide)
  exact ⟨h, by simp only [Subgraph, h]⟩

/-! ## Absent identifiers, AddNode, integrity and closure laws -/

/-- C11. Missing identifiers are empty results or no-ops: for every graph and every
identifier `n` that is not a node, `Successors(n)` and `Predecessors(n)` are empty,
`DelNode(n)` leaves the graph state unchanged, and for every identifier `m` so do
`DelEdge(n, m)` and `DelEdge(m, n)`. -/
theorem missing_identifier (g : DirectedGraph) (n : String) (h : HasNode g n = false) :
    Successors g n = []
    ∧ Predecessors g n = []
    ∧ DelNode g n = g
    ∧ ∀ m : String, DelEdge g n m = g ∧ DelEdge g m n = g :=
  ⟨neighbours_of_not_hasNode g n kSuc h, neighbours_of_not_hasNode g n kPre h,
    delNode_of_not_hasNode g n h,
    fun m => ⟨delEdge_of_not_hasNode_left g n m h, delEdge_of_not_hasNode_right g m n h⟩⟩

/-- Instance of C11: the identifier `q` in the chain `x → y → z`. -/
theorem missing_identifier_witness :
    HasNode chainXYZ "q" = false
    ∧ (Successors chainXYZ "q" = []
    ∧ Predecessors chainXYZ "q" = []
    ∧ DelNode chainXYZ "q" = chainXYZ
    ∧ ∀ m : String, DelEdge chainXYZ "q" m = chainXYZ ∧ DelEdge chainXYZ m "q" = chainXYZ) :=
  ⟨by decide, missing_identifier chainXYZ "q" (by decide)⟩

/-- C12. Absent seed policy: for every graph and every identifier `n` that is not a
node, `Downstreams(n)` and `Upstreams(n)` each return exactly `[n]`; and whenever
`traceNodes` is given `n` among its seeds, `n` is in the closure it returns and every
other element of that closure is reachable from a seed other than `n`. -/
theorem absent_seed (g : DirectedGraph) (n : String) (h : HasNode g n = false) :
    Downstreams g n = Outcome.returned [n]
    ∧ Upstreams g n = Outcome.returned [n]
    ∧ ∀ (nodes : List String) (d : Fin kMax) (result : List String),
        n ∈ nodes → traceNodes g nodes d = Outcome.returned result →
          n ∈ result ∧ ∀ x ∈ result, x = n ∨ ∃ s ∈ nodes, s ≠ n ∧ Path g d s x := by
  refine ⟨traceNodes_of_not_hasNode g n kSuc h, traceNodes_of_not_hasNode g n kPre h, ?_⟩
  intro nodes d result hn hr
  refine ⟨mem_traceNodes_self g nodes d result hr n hn, fun x hx => ?_⟩
  obtain ⟨s, hs, hp⟩ := ((traceNodes_returned g nodes d result hr).2 x).1 hx
  by_cases hsn : s = n
  · subst hsn
    exact Or.inl (path_of_not_hasNode g d s x h hp)
  · exact Or.inr ⟨s, hs, hsn, hp⟩

/-- Instance of C12: the identifier `q` in the chain `x → y → z`. -/
theorem absent_seed_witness :
    HasNode chainXYZ "q" = false
    ∧ (Downstreams chainXYZ "q" = Outcome.returned ["q"]
    ∧ Upstreams chainXYZ "q" = Outcome.returned ["q"]
    ∧ ∀ (nodes : List String) (d : Fin kMax) (result : List String),
        "q" ∈ nodes → traceNodes chainXYZ nodes d = Outcome.returned result →
          "q" ∈ result
          ∧ ∀ x ∈ result, x = "q" ∨ ∃ s ∈ nodes, s ≠ "q" ∧ Path chainXYZ d s x) :=
  ⟨by decide, absent_seed chainXYZ "q" (by decide)⟩

/-- C15. AddNode postcondition and frame: if `x` is absent, then after `AddNode(x)` the
node `x` is present with no successors and no predecessors, the record of every other
identifier is as before, the nodes are the old nodes and `x`, and every successor and
predecessor set is as before; if `x` is present, `AddNode(x)` leaves the whole graph
state unchanged. -/
theorem addNode_postcondition (g : DirectedGraph) (x : String) :
    (HasNode g x = false →
      HasNode (AddNode g x) x = true
      ∧ Successors (AddNode g x) x = []
      ∧ Predecessors (AddNode g x) x = []
      ∧ (∀ k : String, k ≠ x → mapGet (AddNode g x).nodes k = mapGet g.nodes k)
      ∧ (∀ k : String, k ∈ AllNodes (AddNode g x) ↔ k ∈ AllNodes g ∨ k = x)
      ∧ (∀ k : String, Successors (AddNode g x) k = Successors g k
          ∧ Predecessors (AddNode g x) k = Predecessors g k))
    ∧ (HasNode g x = true → AddNode g x = g) := by
  refine ⟨fun h => ⟨hasNode_AddNode_self g x, ?_, ?_, ?_, ?_, ?_⟩, addNode_of_hasNode g x⟩
  · unfold Successors
    rw [neighbours_AddNode]
    exact neighbours_of_not_hasNode g x kSuc h
  · unfold Predecessors
    rw [neighbours_AddNode]
    exact neighbours_of_not_hasNode g x kPre h
  · intro k hk
    rw [mapGet_AddNode]
    cases mapGet g.nodes k with
    | some r => rfl
    | none =>
      have : ¬ x = k := fun e => hk e.symm
      simp [this]
  · intro k
    rw [← hasNode_iff, ← hasNode_iff]
    exact hasNode_AddNode g x k
  · intro k
    exact ⟨neighbours_AddNode g x k kSuc, neighbours_AddNode g x k kPre⟩

/-- C17. Referential integrity: in every graph reachable from `NewGraph()` by mutation
calls, every identifier stored in the predecessor or successor set of a node is itself
a node, and so is every element other than `n` of a result of `Downstreams(n)` or
`Upstreams(n)`. -/
theorem referential_integrity (g : DirectedGraph) (h : Reachable g) :
    (∀ (a : String) (e : edgePair) (d : Fin kMax), mapGet g.nodes a = some e →
        ∀ b ∈ e.slot d, HasNode g b = true)
    ∧ (∀ a b : String, b ∈ Successors g a ∨ b ∈ Predecessors g a → HasNode g b = true)
    ∧ (∀ (n : String) (result : List String), Downstreams g n = Outcome.returned result →
        ∀ m ∈ result, m ≠ n → HasNode g m = true)
    ∧ (∀ (n : String) (result : List String), Upstreams g n = Outcome.returned result →
        ∀ m ∈ result, m ≠ n → HasNode g m = true) := by
  have hs := sym_of_reachable g h
  refine ⟨?_, ?_, ?_, ?_⟩
  · intro a e d he b hb
    apply hasNode_of_mem_neighbours_right g hs a b d
    rw [neighbours_eq]
    simpa [slotOf, he] using hb
  · rintro a b (hb | hb)
    · exact hasNode_of_mem_neighbours_right g hs a b kSuc hb
    · exact hasNode_of_mem_neighbours_right g hs a b kPre hb
  · intro n result hr m hm hne
    exact hasNode_of_path g hs kSuc n m ((mem_traceNodes_single g n kSuc result hr m).1 hm) hne
  · intro n result hr m hm hne
    exact hasNode_of_path g hs kPre n m ((mem_traceNodes_single g n kPre result hr m).1 hm) hne

/-- Instance of C17: the chain `x → y → z` after `DelNode(y)`. -/
theorem referential_integrity_witness :
    (∀ (a : String) (e : edgePair) (d : Fin kMax),
        mapGet (DelNode chainXYZ "y").nodes a = some e →
        ∀ b ∈ e.slot d, HasNode (DelNode chainXYZ "y") b = true)
    ∧ (∀ a b : String,
        b ∈ Successors (DelNode chainXYZ "y") a ∨ b ∈ Predecessors (DelNode chainXYZ "y") a →
        HasNode (DelNode chainXYZ "y") b = true)
    ∧ (∀ (n : String) (result : List String),
        Downstreams (DelNode chainXYZ "y") n = Outcome.returned result →
        ∀ m ∈ result, m ≠ n → HasNode (DelNode chainXYZ "y") m = true)
    ∧ (∀ (n : String) (result : List String),
        Upstreams (DelNode chainXYZ "y") n = Outcome.returned result →
        ∀ m ∈ result, m ≠ n → HasNode (DelNode chainXYZ "y") m = true) :=
  referential_integrity (DelNode chainXYZ "y")
    (Reachable.delNode _ "y"
      (Reachable.addEdge _ "y" "z" (Reachable.addEdge _ "x" "y" Reachable.newGraph)))

/-- C18. Upstream/downstream duality: in every graph reachable from `NewGraph()` by
mutation calls and for all `n` and `m` for which both traversals return, `m` is in
`Downstreams(n)` exactly when `n` is in `Upstreams(m)`. -/
theorem closure_duality (g : DirectedGraph) (h : Reachable g) (n m : String)
    (down up : List String) (hd : Downstreams g n = Outcome.returned down)
    (hu : Upstreams g m = Outcome.returned up) : m ∈ down ↔ n ∈ up := by
  rw [mem_traceNodes_single g n kSuc down hd m, mem_traceNodes_single g m kPre up hu n]
  exact (path_pre_iff_suc g (sym_of_reachable g h) m n).symm

/-- Instance of C18: `z` is downstream of `x` and `x` upstream of `z` in the chain
`x → y → z`. -/
theorem closure_duality_witness :
    (Downstreams chainXYZ "x" = Outcome.returned ["x", "y", "z"]
      ∧ Upstreams chainXYZ "z" = Outcome.returned ["z", "y", "x"])
    ∧ ("z" ∈ ["x", "y", "z"] ↔ "x" ∈ ["z", "y", "x"]) :=
  ⟨⟨by decide, by decide⟩,
   closure_duality chainXYZ
    (Reachable.addEdge _ "y" "z" (Reachable.addEdge _ "x" "y" Reachable.newGraph))
    "x" "z" ["x", "y", "z"] ["z", "y", "x"] (by decide) (by decide)⟩

/-- C20. Closure is transitively closed: for every graph, all `n` and `m` and all
iteration orders of the two traversals (each call ranges over the maps in an order of
its own) for which the traversals return, if `m` is in `Downstreams(n)` then every
element of `Downstreams(m)` is in `Downstreams(n)`; the same holds for `Upstreams`. -/
theorem closure_transitive (g : DirectedGraph) (n m : String) :
    (∀ (o1 o2 : RangeOrder) (rn rm : List String),
        DownstreamsIn o1 g n = Outcome.returned rn →
        DownstreamsIn o2 g m = Outcome.returned rm → m ∈ rn → ∀ x ∈ rm, x ∈ rn)
    ∧ (∀ (o1 o2 : RangeOrder) (rn rm : List String),
        UpstreamsIn o1 g n = Outcome.returned rn →
        UpstreamsIn o2 g m = Outcome.returned rm → m ∈ rn → ∀ x ∈ rm, x ∈ rn) := by
  constructor
  · intro o1 o2 rn rm hn hm hmem x hx
    rw [mem_traceNodesIn_single o1 g n kSuc rn hn] at hmem ⊢
    exact Relation.ReflTransGen.trans hmem
      ((mem_traceNodesIn_single o2 g m kSuc rm hm x).1 hx)
  · intro o1 o2 rn rm hn hm hmem x hx
    rw [mem_traceNodesIn_single o1 g n kPre rn hn] at hmem ⊢
    exact Relation.ReflTransGen.trans hmem
      ((mem_traceNodesIn_single o2 g m kPre rm hm x).1 hx)

/-- Instance of C20 in the graph `x → y`, `x → z`, `y → w`, the first traversal in the
stored order and the second in the reversed one: both return, `y` is downstream of `x`
and what is downstream of `y` is downstream of `x`; `y` is upstream of `w` and what is
upstream of `y` is upstream of `w`. -/
theorem closure_transitive_witness :
    ((DownstreamsIn storedOrder forkXYZ "x" = Outcome.returned ["x", "y", "z", "w"]
        ∧ DownstreamsIn reversedOrder forkXYZ "y" = Outcome.returned ["w", "y"]
        ∧ "y" ∈ ["x", "y", "z", "w"])
      ∧ (UpstreamsIn reversedOrder forkXYZ "w" = Outcome.returned ["x", "y", "w"]
        ∧ UpstreamsIn storedOrder forkXYZ "y" = Outcome.returned ["y", "x"]
        ∧ "y" ∈ ["x", "y", "w"]))
    ∧ ((∀ x ∈ ["w", "y"], x ∈ ["x", "y", "z", "w"])
      ∧ (∀ x ∈ ["y", "x"], x ∈ ["x", "y", "w"])) :=
  ⟨⟨⟨by decide, by decide, by decide⟩, ⟨by decide, by decide, by decide⟩⟩,
   (closure_transitive forkXYZ "x" "y").1 storedOrder reversedOrder
      ["x", "y", "z", "w"] ["w", "y"] (by decide) (by decide) (by decide),
   (closure_transitive forkXYZ "w" "y").2 reversedOrder storedOrder
      ["x", "y", "w"] ["y", "x"] (by decide) (by decide) (by decide)⟩

/-! ## Closure membership, rings and the capacity of the queue -/

/-- C13, evaluated at a failing input: in the graph where `hub` has 257 direct
predecessors, `Upstreams("hub")` blocks on its full work queue, so there is no result
for `hub` to be an element of. -/
theorem upstreams_fanIn_blocked :
    Upstreams (fanIn 257) "hub" = Outcome.blocked
    ∧ ¬ ∃ result, Upstreams (fanIn 257) "hub" = Outcome.returned result ∧ "hub" ∈ result := by
  have hb : Upstreams (fanIn 257) "hub" = Outcome.blocked := by
    apply traceNodes_blocked_of_wide
    have h := length_predecessors_fanIn 257
    unfold Predecessors at h
    unfold queueCap
    omega
  refine ⟨hb, ?_⟩
  rintro ⟨result, hr, _⟩
  rw [hb] at hr
  exact Outcome.noConfusion hr

/-- C14, evaluated at a failing input: in the graph where `hub` has 257 direct
successors, the empty identifier is a successor of `hub`, but `Downstreams("hub")`
blocks on its full work queue and returns no closure that could contain it. -/
theorem successor_not_downstream :
    ident 0 ∈ Successors (star 257) "hub"
    ∧ ¬ ∃ result, Downstreams (star 257) "hub" = Outcome.returned result
        ∧ ident 0 ∈ result := by
  refine ⟨mem_successors_star 257 0 (by decide), ?_⟩
  have hb : traceNodes (star 257) ["hub"] kSuc = Outcome.blocked := by
    apply traceNodes_blocked_of_wide
    have h := length_successors_star 257
    unfold Successors at h
    unfold queueCap
    omega
  rintro ⟨result, hr, _⟩
  unfold Downstreams at hr
  rw [hb] at hr
  exact Outcome.noConfusion hr

/-- C16. Cycle safety: for every list of `k ≥ 1` pairwise distinct identifiers, in the
directed ring through them built by `AddEdge`, `Downstreams` and `Upstreams` of the
first identifier terminate, and each returns exactly the `k` ring identifiers, each
once. -/
theorem cycle_safety (a : String) (t : List String) (h : (a :: t).Nodup) :
    (∃ down, Downstreams (ring (a :: t)) a = Outcome.returned down ∧ down.Perm (a :: t))
    ∧ (∃ up, Upstreams (ring (a :: t)) a = Outcome.returned up ∧ up.Perm (a :: t)) :=
  ⟨closure_ring a t h kSuc, closure_ring a t h kPre⟩

/-- Instance of C16: the two-node cycle `a → b`, `b → a`. -/
theorem cycle_safety_witness :
    (["a", "b"].Nodup ∧ ring ["a", "b"] = AddEdge (AddEdge NewGraph "a" "b") "b" "a"
      ∧ Downstreams (ring ["a", "b"]) "a" = Outcome.returned ["a", "b"])
    ∧ ((∃ down, Downstreams (ring ["a", "b"]) "a" = Outcome.returned down
          ∧ down.Perm ["a", "b"])
      ∧ (∃ up, Upstreams (ring ["a", "b"]) "a" = Outcome.returned up
          ∧ up.Perm ["a", "b"])) :=
  ⟨⟨by decide, by decide, by decide⟩, cycle_safety "a" ["b"] (by decide)⟩

/-- C19. Sufficient condition for the bounded work queue: for every graph, seed list
and direction `d`, if `R` lists the identifiers reachable from the seeds in direction
`d` and the number of seeds plus the sum over `R` of the numbers of direct neighbours in
direction `d` is at most 256, then no send finds the queue full and `traceNodes`
returns. -/
theorem queue_capacity_sufficient (g : DirectedGraph) (nodes : List String) (d : Fin kMax)
    (R : List String) (hR : ∀ x : String, x ∈ R ↔ ∃ s ∈ nodes, Path g d s x)
    (hsum : nodes.length + (R.map (fun x => (neighbours g x d).length)).sum ≤ 256) :
    traceNodes g nodes d ≠ Outcome.blocked
    ∧ ∃ result, traceNodes g nodes d = Outcome.returned result := by
  have hret := traceNodes_returns_of_room g nodes d R
    (fun s hs => (hR s).2 ⟨s, hs, Relation.ReflTransGen.refl⟩)
    (fun x hx y hy => by
      obtain ⟨s, hs, hp⟩ := (hR x).1 hx
      exact (hR y).2 ⟨s, hs, Relation.ReflTransGen.tail hp hy⟩)
    hsum
  refine ⟨?_, hret⟩
  obtain ⟨result, hr⟩ := hret
  rw [hr]
  exact fun hc => Outcome.noConfusion hc

/-- Instance of C19: the seed `x` in the chain `x → y → z`, where `1 + (1 + 1 + 0)` is
at most 256. -/
theorem queue_capacity_sufficient_witness :
    ((∀ x : String, x ∈ ["x", "y", "z"] ↔ ∃ s ∈ ["x"], Path chainXYZ kSuc s x)
      ∧ ["x"].length
          + (["x", "y", "z"].map (fun x => (neighbours chainXYZ x kSuc).length)).sum ≤ 256)
    ∧ (traceNodes chainXYZ ["x"] kSuc ≠ Outcome.blocked
      ∧ ∃ result, traceNodes chainXYZ ["x"] kSuc = Outcome.returned result) :=
  ⟨⟨(traceNodes_returned chainXYZ ["x"] kSuc ["x", "y", "z"] (by decide)).2, by decide⟩,
   queue_capacity_sufficient chainXYZ ["x"] kSuc ["x", "y", "z"]
    (traceNodes_returned chainXYZ ["x"] kSuc ["x", "y", "z"] (by decide)).2 (by decide)⟩

end topogo
